import Mathlib

set_option maxRecDepth 100000

/-!
# Verification of the PTH chat client core (frontend/src/App.jsx, frontend/src/api.js)

Shallow embedding of the conversation-session engine of the `pth-chatbot-v2`
frontend.  Text is modelled as `List Char` (one entry per Unicode scalar);
JavaScript string operations used by the source (`replace` with the concrete
regexes appearing in the code, `replaceAll` with one-character needles,
`trim`, `slice`, `+`) are translated operation by operation.

Sections:
* annotation post-processor (`stripBackendNote`, `maybeAttachNote`)
* sanitizing renderer (`escapeHtml`, `mdLite`)
* session store and send pipeline (`newSession`, `onDeleteSession`,
  `tryAcquire`, `send`, streaming chunk application)
-/

namespace PTH

/-! ## JavaScript string primitives -/

/-- The ECMAScript whitespace set used by `String.prototype.trim`:
`WhiteSpace` (TAB VT FF SP NBSP ZWNBSP and Unicode `Space_Separator`)
plus `LineTerminator` (LF CR LS PS). -/
def jsWhite (c : Char) : Bool :=
  c = ' ' || c = '\t' || c = '\n' || c = '\r' ||
  c = '\x0b' || c = '\x0c' || c = '\u00A0' || c = '\uFEFF' ||
  c = '\u1680' || ('\u2000' ≤ c && c ≤ '\u200A') ||
  c = '\u2028' || c = '\u2029' || c = '\u202F' || c = '\u205F' || c = '\u3000'

/-- Strip leading JS whitespace (the left half of `String.prototype.trim`). -/
def trimLeft (l : List Char) : List Char := l.dropWhile jsWhite

/-- Strip trailing JS whitespace (the right half of `String.prototype.trim`). -/
def trimRight (l : List Char) : List Char := (l.reverse.dropWhile jsWhite).reverse

/-- `String.prototype.trim`. -/
def jsTrim (l : List Char) : List Char := trimLeft (trimRight l)

/-- Case-insensitive character comparison as performed by a non-Unicode-mode
JavaScript regex with the `i` flag on an ASCII pattern character: ASCII
letters fold, any non-ASCII character only matches itself (in non-`u` mode a
canonicalised non-ASCII code point never matches an ASCII pattern char). -/
def ciEq (a b : Char) : Bool := a.toLower = b.toLower

/-- `startsWithCI pat l`: the text `l` begins with the pattern `pat`,
compared case-insensitively (`ciEq`). -/
def startsWithCI : List Char → List Char → Bool
  | [], _ => true
  | _ :: _, [] => false
  | a :: as, b :: bs => ciEq a b && startsWithCI as bs

/-- `containsCI pat l`: some suffix of `l` begins with `pat` (case-insensitive
occurrence check). -/
def containsCI (pat : List Char) : List Char → Bool
  | [] => startsWithCI pat []
  | c :: rest => startsWithCI pat (c :: rest) || containsCI pat rest

/-- `md.replace(/marker[\s\S]*$/i, "")` for a literal `marker`: delete
everything from the first (case-insensitive) occurrence of `marker` to the
end of the string; if there is no occurrence the string is unchanged. -/
def dropFromMarkerCI (pat : List Char) : List Char → List Char
  | [] => []
  | c :: rest =>
    if startsWithCI pat (c :: rest) then []
    else c :: dropFromMarkerCI pat rest

/-! ## Annotation post-processor (App.jsx lines 12-41) -/

/-- `SENSITIVE_INTENTS` (App.jsx line 12). -/
def sensitiveIntents : List String :=
  ["vishing_call", "customer_phishing", "employee_phishing", "urgent_phishing",
   "wire_fraud", "sim_swapping", "update_personal_info_requests",
   "identity_theft_breach", "password_breach"]

/-- `NOTE_EN` (App.jsx line 24). -/
def NOTE_EN : List Char :=
  "**Note:** I’m an educational assistant, not your bank. Never share OTP/PIN. For account matters, contact your bank directly.".data

/-- `NOTE_MY` (App.jsx line 26). -/
def NOTE_MY : List Char :=
  "**မှတ်ချက်:** ဤကိရိယာသည် ပညာပေးအတွက်သာ ဖြစ်ပြီး သင့်ဘဏ်မဟုတ်ပါ။ OTP/PIN မမျှဝေပါနှင့်။ အကောင့်ဆိုင်ရာအတွက် တရားဝင် App/Website သို့မဟုတ် Hotline ကိုသာ သုံးပါ။".data

/-- The English note marker `**Note:**` matched by `/\*\*Note:\*\*[\s\S]*$/i`. -/
def noteMarker : List Char := "**Note:**".data

/-- The Burmese note marker `**မှတ်ချက်:**` matched by
`/\*\*မှတ်ချက်:\*\*[\s\S]*$/i`. -/
def myMarker : List Char := "**မှတ်ချက်:**".data

/-- `stripBackendNote` (App.jsx line 29): drop from the first English marker
to the end, then from the first Burmese marker to the end, then `trim`. -/
def stripBackendNote (md : List Char) : List Char :=
  jsTrim (dropFromMarkerCI myMarker (dropFromMarkerCI noteMarker md))

/-- `maybeAttachNote` (App.jsx line 35). -/
def maybeAttachNote (text : List Char) (intent : String) (lang : String) : List Char :=
  let clean := stripBackendNote text
  if intent ∈ sensitiveIntents then
    clean ++ ('\n' :: '\n' :: (if lang = "my" then NOTE_MY else NOTE_EN))
  else clean

/-! ## Lemmas about the string primitives -/

theorem dropWhile_head_false {p : Char → Bool} {x : List Char} {e : Char} {es : List Char}
    (h : x.dropWhile p = e :: es) : p e = false := by
  induction x with
  | nil => simp [List.dropWhile] at h
  | cons a x ih =>
    by_cases hpa : p a
    · rw [List.dropWhile_cons_of_pos hpa] at h
      exact ih h
    · rw [List.dropWhile_cons_of_neg hpa] at h
      cases h
      exact eq_false_of_ne_true hpa

theorem dropWhile_idem (p : Char → Bool) (x : List Char) :
    (x.dropWhile p).dropWhile p = x.dropWhile p := by
  cases hd : x.dropWhile p with
  | nil => simp
  | cons e es =>
    have := dropWhile_head_false hd
    simp [List.dropWhile, this]

theorem trimRight_idem (l : List Char) : trimRight (trimRight l) = trimRight l := by
  simp [trimRight, dropWhile_idem]

theorem trimLeft_idem (l : List Char) : trimLeft (trimLeft l) = trimLeft l := by
  simp [trimLeft, dropWhile_idem]

/-- If `l` already has no trailing JS whitespace, left-trimming keeps it so. -/
theorem trimRight_trimLeft_of_fixed {y : List Char} (h : trimRight y = y) :
    trimRight (trimLeft y) = trimLeft y := by
  unfold trimLeft
  cases hd : y.dropWhile jsWhite with
  | nil => simp [trimRight]
  | cons e es =>
    -- y = takeWhile ++ (e :: es), so y.reverse = (e::es).reverse ++ (takeWhile).reverse
    have hy : y.takeWhile jsWhite ++ (e :: es) = y := by
      rw [← hd]; exact List.takeWhile_append_dropWhile jsWhite y
    have hyrev : y.reverse = (e :: es).reverse ++ (y.takeWhile jsWhite).reverse := by
      have := congrArg List.reverse hy
      rw [List.reverse_append] at this
      exact this.symm
    -- the head of y.reverse is the head of (e::es).reverse
    rcases List.exists_cons_of_ne_nil (by simp : (e :: es).reverse ≠ []) with ⟨f, fs, hfs⟩
    have hyrev' : y.reverse = f :: (fs ++ (y.takeWhile jsWhite).reverse) := by
      rw [hyrev, hfs]; simp
    -- trimRight y = y says dropWhile on y.reverse is the identity
    have hfix : y.reverse.dropWhile jsWhite = y.reverse := by
      have := congrArg List.reverse h
      simpa [trimRight] using this
    rw [hyrev'] at hfix
    have hpf : jsWhite f = false := dropWhile_head_false hfix
    -- hence dropWhile is the identity on (e::es).reverse as well
    show trimRight (e :: es) = e :: es
    unfold trimRight
    rw [hfs, List.dropWhile_cons_of_neg (by simp [hpf])]
    rw [← hfs]; simp

theorem dropWhile_append_all {p : Char → Bool} {w : List Char}
    (hw : ∀ c ∈ w, p c = true) (z : List Char) :
    (w ++ z).dropWhile p = z.dropWhile p := by
  induction w with
  | nil => rfl
  | cons a w ih =>
    rw [List.cons_append, List.dropWhile_cons_of_pos (by simp [hw a (by simp)])]
    exact ih (fun c hc => hw c (by simp [hc]))

theorem trimRight_append_white {w : List Char} (hw : ∀ c ∈ w, jsWhite c = true)
    (y : List Char) : trimRight (y ++ w) = trimRight y := by
  unfold trimRight
  rw [List.reverse_append, dropWhile_append_all (by simpa using hw)]

/-- Appending JS whitespace to already-trimmed text and trimming again gives
the trimmed text back. -/
theorem jsTrim_append_white {w : List Char} (hw : ∀ c ∈ w, jsWhite c = true)
    (l : List Char) : jsTrim (jsTrim l ++ w) = jsTrim l := by
  unfold jsTrim
  rw [trimRight_append_white hw]
  rw [trimRight_trimLeft_of_fixed (trimRight_idem l)]
  exact trimLeft_idem _

theorem jsTrim_idem (l : List Char) : jsTrim (jsTrim l) = jsTrim l := by
  simpa using jsTrim_append_white (w := []) (by simp) l

theorem trimRight_prefix (l : List Char) : ∃ t, l = trimRight l ++ t := by
  refine ⟨(l.reverse.takeWhile jsWhite).reverse, ?_⟩
  have h := List.takeWhile_append_dropWhile jsWhite l.reverse
  have := congrArg List.reverse h
  rw [List.reverse_append] at this
  simpa [trimRight] using this.symm

theorem trimLeft_suffix (l : List Char) : ∃ t, l = t ++ trimLeft l :=
  ⟨l.takeWhile jsWhite, (List.takeWhile_append_dropWhile jsWhite l).symm⟩

/-! ## Lemmas about case-insensitive occurrence -/

theorem startsWithCI_mono {pat p : List Char} (t : List Char)
    (h : startsWithCI pat p = true) : startsWithCI pat (p ++ t) = true := by
  induction pat generalizing p with
  | nil => rfl
  | cons a as ih =>
    cases p with
    | nil => simp [startsWithCI] at h
    | cons b bs =>
      simp only [startsWithCI, Bool.and_eq_true] at h ⊢
      exact ⟨h.1, ih h.2⟩

theorem startsWithCI_self_append (m x : List Char) : startsWithCI m (m ++ x) = true := by
  induction m with
  | nil => rfl
  | cons c r ih => simp [startsWithCI, ciEq, ih]

theorem containsCI_nil_pat (l : List Char) : containsCI [] l = true := by
  cases l <;> simp [containsCI, startsWithCI]

theorem containsCI_append_left {pat p : List Char} (t : List Char)
    (h : containsCI pat p = true) : containsCI pat (p ++ t) = true := by
  induction p with
  | nil =>
    cases pat with
    | nil => exact containsCI_nil_pat t
    | cons a as => simp [containsCI, startsWithCI] at h
  | cons c p ih =>
    simp only [containsCI, Bool.or_eq_true] at h
    rcases h with h | h
    · simp only [List.cons_append, containsCI, Bool.or_eq_true]
      exact Or.inl (by simpa using startsWithCI_mono t h)
    · simp only [List.cons_append, containsCI, Bool.or_eq_true]
      exact Or.inr (ih h)

theorem containsCI_append_right {pat : List Char} (p : List Char) {t : List Char}
    (h : containsCI pat t = true) : containsCI pat (p ++ t) = true := by
  induction p with
  | nil => simpa using h
  | cons c p ih => simp only [List.cons_append, containsCI, Bool.or_eq_true]; exact Or.inr ih

theorem dropFromMarkerCI_cons (pat : List Char) (c : Char) (rest : List Char) :
    dropFromMarkerCI pat (c :: rest) =
      if startsWithCI pat (c :: rest) = true then [] else c :: dropFromMarkerCI pat rest := rfl

theorem dropFromMarkerCI_prefix (pat l : List Char) :
    ∃ t, l = dropFromMarkerCI pat l ++ t := by
  induction l with
  | nil => exact ⟨[], rfl⟩
  | cons c rest ih =>
    by_cases h : startsWithCI pat (c :: rest) = true
    · exact ⟨c :: rest, by simp [dropFromMarkerCI, h]⟩
    · rcases ih with ⟨t, ht⟩
      refine ⟨t, ?_⟩
      rw [dropFromMarkerCI_cons, if_neg h, List.cons_append]
      exact congrArg (c :: ·) ht

theorem dropFromMarkerCI_no_contains {pat : List Char} (hpat : pat ≠ []) (l : List Char) :
    containsCI pat (dropFromMarkerCI pat l) = false := by
  induction l with
  | nil =>
    cases pat with
    | nil => exact absurd rfl hpat
    | cons a as => simp [dropFromMarkerCI, containsCI, startsWithCI]
  | cons c rest ih =>
    by_cases h : startsWithCI pat (c :: rest) = true
    · rw [dropFromMarkerCI_cons, if_pos h]
      cases pat with
      | nil => exact absurd rfl hpat
      | cons a as => simp [containsCI, startsWithCI]
    · rw [dropFromMarkerCI_cons, if_neg h]
      simp only [containsCI, Bool.or_eq_false_iff]
      refine ⟨?_, ih⟩
      by_contra hcon
      rcases dropFromMarkerCI_prefix pat rest with ⟨t, ht⟩
      have : startsWithCI pat (c :: dropFromMarkerCI pat rest) = true := by
        revert hcon
        cases hsw : startsWithCI pat (c :: dropFromMarkerCI pat rest) <;> simp
      have := startsWithCI_mono t this
      rw [List.cons_append, ← ht] at this
      exact h this

theorem dropFromMarkerCI_of_not_contains {pat l : List Char}
    (h : containsCI pat l = false) : dropFromMarkerCI pat l = l := by
  induction l with
  | nil => rfl
  | cons c rest ih =>
    simp only [containsCI, Bool.or_eq_false_iff] at h
    rw [dropFromMarkerCI_cons, if_neg (by simp [h.1])]
    exact congrArg (c :: ·) (ih h.2)

/-- No case-insensitive occurrence of `pat` begins inside `a` when the text
continues with `b` (so `dropFromMarkerCI` passes over all of `a`). -/
def noOccSpanning (pat : List Char) : List Char → List Char → Bool
  | [], _ => true
  | c :: r, b => !(startsWithCI pat (c :: (r ++ b))) && noOccSpanning pat r b

theorem dropFromMarkerCI_append {pat a b : List Char}
    (h : noOccSpanning pat a b = true) :
    dropFromMarkerCI pat (a ++ b) = a ++ dropFromMarkerCI pat b := by
  induction a with
  | nil => rfl
  | cons c r ih =>
    simp only [noOccSpanning, Bool.and_eq_true, Bool.not_eq_true'] at h
    rw [List.cons_append, dropFromMarkerCI_cons, if_neg (by simp [h.1])]
    exact congrArg (c :: ·) (ih h.2)

theorem startsWithCI_append_stop {pat : List Char} {d : Char}
    (hd : ∀ c ∈ pat, ciEq c d = false) (x r : List Char) :
    startsWithCI pat (x ++ d :: r) = startsWithCI pat x := by
  induction pat generalizing x with
  | nil => rfl
  | cons a as ih =>
    cases x with
    | nil => simp [startsWithCI, hd a (by simp)]
    | cons b bs =>
      show (ciEq a b && startsWithCI as (bs ++ d :: r)) = (ciEq a b && startsWithCI as bs)
      rw [ih (fun c hc => hd c (by simp [hc])) bs]

theorem noOccSpanning_newline {pat : List Char} {d : Char}
    (hd : ∀ c ∈ pat, ciEq c d = false) {a : List Char}
    (ha : containsCI pat a = false) (r : List Char) :
    noOccSpanning pat a (d :: r) = true := by
  induction a with
  | nil => rfl
  | cons c a ih =>
    simp only [containsCI, Bool.or_eq_false_iff] at ha
    simp only [noOccSpanning, Bool.and_eq_true, Bool.not_eq_true']
    exact ⟨by rw [show c :: (a ++ d :: r) = (c :: a) ++ d :: r from rfl,
                  startsWithCI_append_stop hd]; exact ha.1,
           ih ha.2⟩

theorem dropFromMarkerCI_self {m : List Char} (hm : m ≠ []) (b : List Char) :
    dropFromMarkerCI m (m ++ b) = [] := by
  cases m with
  | nil => exact absurd rfl hm
  | cons c r =>
    rw [List.cons_append, dropFromMarkerCI_cons,
        if_pos (by rw [← List.cons_append]; exact startsWithCI_self_append _ b)]

/-! ## Facts about `stripBackendNote` -/

theorem containsCI_jsTrim_false {pat l : List Char}
    (h : containsCI pat l = false) : containsCI pat (jsTrim l) = false := by
  by_contra hc
  have hc' : containsCI pat (jsTrim l) = true := by
    revert hc; cases containsCI pat (jsTrim l) <;> simp
  rcases trimLeft_suffix (trimRight l) with ⟨t, ht⟩
  have h2 : containsCI pat (trimRight l) = true := by
    rw [ht]; exact containsCI_append_right t hc'
  rcases trimRight_prefix l with ⟨t', ht'⟩
  have h3 : containsCI pat l = true := by
    rw [ht']; exact containsCI_append_left t' h2
  rw [h] at h3; cases h3

theorem containsCI_dropFromMarkerCI_false {pat q l : List Char}
    (h : containsCI pat l = false) :
    containsCI pat (dropFromMarkerCI q l) = false := by
  by_contra hc
  have hc' : containsCI pat (dropFromMarkerCI q l) = true := by
    revert hc; cases containsCI pat (dropFromMarkerCI q l) <;> simp
  rcases dropFromMarkerCI_prefix q l with ⟨t, ht⟩
  have h2 : containsCI pat l = true := by
    rw [ht]; exact containsCI_append_left t hc'
  rw [h] at h2; cases h2

theorem strip_no_noteMarker (md : List Char) :
    containsCI noteMarker (stripBackendNote md) = false := by
  unfold stripBackendNote
  exact containsCI_jsTrim_false (containsCI_dropFromMarkerCI_false
    (dropFromMarkerCI_no_contains (by decide) md))

theorem strip_no_myMarker (md : List Char) :
    containsCI myMarker (stripBackendNote md) = false := by
  unfold stripBackendNote
  exact containsCI_jsTrim_false (dropFromMarkerCI_no_contains (by decide) _)

theorem stripBackendNote_of_no_markers {md : List Char}
    (h1 : containsCI noteMarker md = false) (h2 : containsCI myMarker md = false) :
    stripBackendNote md = jsTrim md := by
  unfold stripBackendNote
  rw [dropFromMarkerCI_of_not_contains h1, dropFromMarkerCI_of_not_contains h2]

theorem stripBackendNote_idem (md : List Char) :
    stripBackendNote (stripBackendNote md) = stripBackendNote md := by
  rw [stripBackendNote_of_no_markers (strip_no_noteMarker md) (strip_no_myMarker md)]
  unfold stripBackendNote
  exact jsTrim_idem _

theorem jsTrim_strip_append_nn (md : List Char) :
    jsTrim (stripBackendNote md ++ ['\n', '\n']) = stripBackendNote md := by
  unfold stripBackendNote
  exact jsTrim_append_white (by decide) _

theorem strip_clean_note_en (md : List Char) :
    stripBackendNote (stripBackendNote md ++ ('\n' :: '\n' :: NOTE_EN))
      = stripBackendNote md := by
  have h1 : dropFromMarkerCI noteMarker (stripBackendNote md ++ ('\n' :: '\n' :: NOTE_EN))
      = stripBackendNote md ++ dropFromMarkerCI noteMarker ('\n' :: '\n' :: NOTE_EN) :=
    dropFromMarkerCI_append (noOccSpanning_newline (by decide) (strip_no_noteMarker md) _)
  have h1' : dropFromMarkerCI noteMarker ('\n' :: '\n' :: NOTE_EN) = ['\n', '\n'] := by decide
  have h2 : dropFromMarkerCI myMarker (stripBackendNote md ++ ['\n', '\n'])
      = stripBackendNote md ++ dropFromMarkerCI myMarker ['\n', '\n'] :=
    dropFromMarkerCI_append (noOccSpanning_newline (by decide) (strip_no_myMarker md) _)
  have h2' : dropFromMarkerCI myMarker (['\n', '\n'] : List Char) = ['\n', '\n'] := by decide
  conv_lhs => rw [stripBackendNote, h1, h1', h2, h2']
  exact jsTrim_strip_append_nn md

theorem strip_clean_note_my (md : List Char) :
    stripBackendNote (stripBackendNote md ++ ('\n' :: '\n' :: NOTE_MY))
      = stripBackendNote md := by
  have h1 : dropFromMarkerCI noteMarker (stripBackendNote md ++ ('\n' :: '\n' :: NOTE_MY))
      = stripBackendNote md ++ dropFromMarkerCI noteMarker ('\n' :: '\n' :: NOTE_MY) :=
    dropFromMarkerCI_append (noOccSpanning_newline (by decide) (strip_no_noteMarker md) _)
  have h1' : dropFromMarkerCI noteMarker ('\n' :: '\n' :: NOTE_MY)
      = '\n' :: '\n' :: NOTE_MY := by decide
  have h2 : dropFromMarkerCI myMarker (stripBackendNote md ++ ('\n' :: '\n' :: NOTE_MY))
      = stripBackendNote md ++ dropFromMarkerCI myMarker ('\n' :: '\n' :: NOTE_MY) :=
    dropFromMarkerCI_append (noOccSpanning_newline (by decide) (strip_no_myMarker md) _)
  have h2' : dropFromMarkerCI myMarker ('\n' :: '\n' :: NOTE_MY) = ['\n', '\n'] := by decide
  conv_lhs => rw [stripBackendNote, h1, h1', h2, h2']
  exact jsTrim_strip_append_nn md

/-! ## Claim C3: idempotence of the annotation post-processor -/

/-- C3: the annotation post-processor is idempotent: for all text `t`,
intent `i` and language `l`, `annotate (annotate t i l) i l = annotate t i l`;
a note block already present is stripped before the localized disclaimer is
re-appended, so the note is never duplicated. -/
theorem maybeAttachNote_idem (t : List Char) (i l : String) :
    maybeAttachNote (maybeAttachNote t i l) i l = maybeAttachNote t i l := by
  simp only [maybeAttachNote]
  by_cases hi : i ∈ sensitiveIntents
  · simp only [if_pos hi]
    by_cases hl : l = "my"
    · simp only [if_pos hl]
      exact congrArg (· ++ ('\n' :: '\n' :: NOTE_MY)) (strip_clean_note_my t)
    · simp only [if_neg hl]
      exact congrArg (· ++ ('\n' :: '\n' :: NOTE_EN)) (strip_clean_note_en t)
  · simp only [if_neg hi]
    exact stripBackendNote_idem t

/-! ## Claim C4: totality of the annotation post-processor

JavaScript argument values relevant to defaulting: a parameter may be a
string, `null`, or absent (`undefined`).  A default parameter value
(`md = ""`, `lang = "en"`) is substituted only for `undefined`, not for
`null`; calling `.replace` on `null` throws a `TypeError`. -/

inductive JVal where
  | undef
  | null
  | str (s : String)
deriving DecidableEq

/-- `stripBackendNote` as called with a JavaScript value: the `md = ""`
default only covers `undefined`; on `null` the call `md.replace(...)`
throws. -/
def stripBackendNoteJ : JVal → Except String (List Char)
  | .undef => .ok (stripBackendNote [])
  | .null => .error "TypeError"
  | .str s => .ok (stripBackendNote s.data)

/-- `SENSITIVE_INTENTS.has(intent)`: only a member string answers true. -/
def jvalSensitive : JVal → Bool
  | .str s => decide (s ∈ sensitiveIntents)
  | _ => false

/-- `lang === "my"` after the `lang = "en"` default (which replaces only
`undefined`). -/
def jvalIsMy : JVal → Bool
  | .str s => s = "my"
  | _ => false

/-- `maybeAttachNote` as called with JavaScript values. -/
def maybeAttachNoteJ (text intent lang : JVal) : Except String (List Char) :=
  match stripBackendNoteJ text with
  | .error e => .error e
  | .ok clean =>
    .ok (if jvalSensitive intent then
          clean ++ ('\n' :: '\n' :: (if jvalIsMy lang then NOTE_MY else NOTE_EN))
        else clean)

/-- C4 (failing input): calling the annotation post-processor with a `null`
text raises a `TypeError` instead of returning a result — the `md = ""`
default parameter of `stripBackendNote` replaces only `undefined`, so
`null.replace` is evaluated.  With any other text value (a string or an
absent argument) the function is total and unknown intents/languages
degrade to the documented defaults. -/
theorem maybeAttachNoteJ_null_raises :
    maybeAttachNoteJ JVal.null (JVal.str "vishing_call") (JVal.str "en")
        = Except.error "TypeError"
    ∧ (∀ i l, maybeAttachNoteJ JVal.null i l = Except.error "TypeError")
    ∧ maybeAttachNoteJ JVal.undef JVal.undef JVal.undef
        = Except.ok (stripBackendNote []) := by
  refine ⟨rfl, fun i l => rfl, rfl⟩

/-! ## Claim C10: everything from the first note marker on is discarded -/

/-- C10: for a text of the form `a ++ marker ++ b` whose first marker
occurrence is the displayed one (`noOccSpanning`), annotation with a
non-sensitive intent returns only the trimmed portion strictly before the
marker: all of `b` is discarded.  Stated for the English marker (first
conjunct) and the Burmese marker (second conjunct). -/
theorem maybeAttachNote_discards_tail (a b : List Char) (i l : String)
    (hi : i ∉ sensitiveIntents) :
    (noOccSpanning noteMarker a (noteMarker ++ b) = true →
      containsCI myMarker a = false →
      maybeAttachNote (a ++ (noteMarker ++ b)) i l = jsTrim a)
    ∧ (noOccSpanning myMarker a (myMarker ++ b) = true →
      containsCI noteMarker (a ++ (myMarker ++ b)) = false →
      maybeAttachNote (a ++ (myMarker ++ b)) i l = jsTrim a) := by
  constructor
  · intro hspan hmy
    simp only [maybeAttachNote, if_neg hi]
    unfold stripBackendNote
    rw [dropFromMarkerCI_append hspan,
        dropFromMarkerCI_self (by decide),
        List.append_nil,
        dropFromMarkerCI_of_not_contains hmy]
  · intro hspan hnote
    simp only [maybeAttachNote, if_neg hi]
    unfold stripBackendNote
    rw [dropFromMarkerCI_of_not_contains hnote,
        dropFromMarkerCI_append hspan,
        dropFromMarkerCI_self (by decide),
        List.append_nil]

/-- C10 witness: a concrete mid-text marker; the legitimate text after the
marker is discarded and the part before it is trimmed. -/
theorem maybeAttachNote_discards_tail_witness :
    maybeAttachNote ("Stay safe. ".data ++ (noteMarker ++ " everything after this is dropped".data))
        "general" "en" = jsTrim "Stay safe. ".data
    ∧ maybeAttachNote ("Stay safe. ".data ++ (myMarker ++ " everything after this is dropped".data))
        "general" "en" = jsTrim "Stay safe. ".data := by
  constructor
  · exact (maybeAttachNote_discards_tail "Stay safe. ".data
      " everything after this is dropped".data "general" "en" (by decide)).1
      (by decide) (by decide)
  · exact (maybeAttachNote_discards_tail "Stay safe. ".data
      " everything after this is dropped".data "general" "en" (by decide)).2
      (by decide) (by decide)

/-! ## Sanitizing renderer (App.jsx lines 44-57)

`escapeHtml` is the chain of five `replaceAll`s in source order; `mdLite`
escapes first and then applies the two presentational regex substitutions
`/\*\*(.+?)\*\*/g` (lazy bold) and `/\n/g` (line break). -/

/-- `"&amp;"`. -/
def ampE : List Char := "&amp;".data
/-- `"&lt;"`. -/
def ltE : List Char := "&lt;".data
/-- `"&gt;"`. -/
def gtE : List Char := "&gt;".data
/-- `"&quot;"`. -/
def quotE : List Char := "&quot;".data
/-- `"&#39;"`. -/
def aposE : List Char := "&#39;".data
/-- `"<strong>"`. -/
def strongOpenT : List Char := "<strong>".data
/-- `"</strong>"`. -/
def strongCloseT : List Char := "</strong>".data
/-- `"<br/>"`. -/
def brT : List Char := "<br/>".data

/-- `s.replaceAll(ch, rep)` for a one-character needle `ch`: every
occurrence (= every equal character) is replaced by `rep`. -/
def replaceAllChar (ch : Char) (rep : List Char) (l : List Char) : List Char :=
  (l.map (fun c => if c = ch then rep else [c])).flatten

/-- `escapeHtml` (App.jsx line 44): `&` then `<` then `>` then `"` then `'`,
in source order (so entity ampersands inserted by the first pass are not
re-escaped, and later passes never see a character their needle matches
inside an already-inserted entity). -/
def escapeHtml (l : List Char) : List Char :=
  replaceAllChar '\'' aposE
    (replaceAllChar '"' quotE
      (replaceAllChar '>' gtE
        (replaceAllChar '<' ltE
          (replaceAllChar '&' ampE l))))

/-- The lazy search for a closing `**` performed by `/\*\*(.+?)\*\*/`
after an opening `**` has been consumed: return the shortest non-empty
capture made of non-newline characters that is immediately followed by
`**`, together with the text after that closing `**`.  (`.` in a
non-dotall JavaScript regex does not match a newline, and `+?` is lazy, so
the first sufficient close wins.) -/
def boldClose : List Char → Option (List Char × List Char)
  | [] => none
  | c :: l =>
    if c = '\n' then none
    else
      match l with
      | '*' :: '*' :: rem => some ([c], rem)
      | _ =>
        match boldClose l with
        | some (cap, rem) => some (c :: cap, rem)
        | none => none

theorem boldClose_spec : ∀ {l cap rem : List Char},
    boldClose l = some (cap, rem) → l = cap ++ '*' :: '*' :: rem ∧ cap ≠ [] := by
  intro l
  induction l with
  | nil => intro cap rem h; simp [boldClose] at h
  | cons c l ih =>
    intro cap rem h
    unfold boldClose at h
    by_cases hc : c = '\n'
    · rw [if_pos hc] at h; cases h
    · rw [if_neg hc] at h
      split at h
      · rename_i rem'
        cases h
        exact ⟨rfl, by simp⟩
      · split at h
        · rename_i cap' rem' hbc
          cases h
          obtain ⟨hl, hne⟩ := ih hbc
          exact ⟨by rw [hl]; rfl, by simp⟩
        · cases h

theorem boldClose_length {l cap rem : List Char}
    (h : boldClose l = some (cap, rem)) : rem.length < l.length := by
  obtain ⟨hl, hne⟩ := boldClose_spec h
  have := congrArg List.length hl
  have hcap : 0 < cap.length := List.length_pos.mpr hne
  simp [List.length_append] at this
  omega

/-- Fuelled worker for the global lazy bold substitution; one unit of fuel
is spent per scanning step, so `fuel = l.length` always suffices. -/
def boldReplaceF : Nat → List Char → List Char
  | 0, l => l
  | _ + 1, [] => []
  | fuel + 1, c :: l =>
    if c = '*' then
      match l with
      | [] => ['*']
      | c2 :: l2 =>
        if c2 = '*' then
          match boldClose l2 with
          | some (cap, rem) => strongOpenT ++ cap ++ strongCloseT ++ boldReplaceF fuel rem
          | none => '*' :: boldReplaceF fuel l
        else '*' :: boldReplaceF fuel l
    else c :: boldReplaceF fuel l

/-- `safe.replace(/\*\*(.+?)\*\*/g, "<strong>$1</strong>")`: scan left to
right; at each position try the lazy match (opening `**`, then
`boldClose`); on a match emit `<strong>capture</strong>` and continue after
the closing `**`; otherwise copy one character and continue. -/
def boldReplace (l : List Char) : List Char := boldReplaceF l.length l

theorem boldReplaceF_congr : ∀ (f1 f2 : Nat) (l : List Char),
    l.length ≤ f1 → l.length ≤ f2 → boldReplaceF f1 l = boldReplaceF f2 l := by
  intro f1
  induction f1 with
  | zero =>
    intro f2 l h1 _
    have : l = [] := List.eq_nil_of_length_eq_zero (Nat.le_zero.mp h1)
    subst this
    cases f2 <;> rfl
  | succ n1 ih =>
    intro f2 l h1 h2
    cases l with
    | nil => cases f2 <;> rfl
    | cons c l =>
      cases f2 with
      | zero => simp at h2
      | succ n2 =>
        simp only [List.length_cons, Nat.add_le_add_iff_right] at h1 h2
        by_cases hc : c = '*'
        · subst hc
          cases l with
          | nil => rfl
          | cons c2 l2 =>
            by_cases hc2 : c2 = '*'
            · subst hc2
              cases hbc : boldClose l2 with
              | some pr =>
                obtain ⟨cap, rem⟩ := pr
                have hr : rem.length < l2.length := boldClose_length hbc
                have hlen : l2.length + 1 ≤ n1 := by simpa using h1
                have hlen2 : l2.length + 1 ≤ n2 := by simpa using h2
                simp only [boldReplaceF, if_true, eq_self_iff_true, hbc]
                rw [ih n2 rem (by omega) (by omega)]
              | none =>
                simp only [boldReplaceF, if_true, eq_self_iff_true, hbc]
                rw [ih n2 ('*' :: l2) (by simpa using h1) (by simpa using h2)]
            · simp only [boldReplaceF, if_true, eq_self_iff_true, if_neg hc2]
              rw [ih n2 (c2 :: l2) h1 h2]
        · simp only [boldReplaceF, if_neg hc]
          rw [ih n2 l h1 h2]

theorem boldReplace_nil : boldReplace [] = [] := rfl

theorem boldReplace_single_star : boldReplace ['*'] = ['*'] := rfl

theorem boldReplace_cons_ne {c : Char} (hc : c ≠ '*') (l : List Char) :
    boldReplace (c :: l) = c :: boldReplace l := by
  show boldReplaceF (l.length + 1) (c :: l) = c :: boldReplaceF l.length l
  simp only [boldReplaceF, if_neg hc]

theorem boldReplace_star_cons_ne {c : Char} (hc : c ≠ '*') (l : List Char) :
    boldReplace ('*' :: c :: l) = '*' :: boldReplace (c :: l) := by
  show boldReplaceF (l.length + 2) ('*' :: c :: l)
      = '*' :: boldReplaceF (l.length + 1) (c :: l)
  simp only [boldReplaceF, if_true, eq_self_iff_true, if_neg hc]

theorem boldReplace_match {l2 cap rem : List Char}
    (hbc : boldClose l2 = some (cap, rem)) :
    boldReplace ('*' :: '*' :: l2)
      = strongOpenT ++ cap ++ strongCloseT ++ boldReplace rem := by
  show boldReplaceF (l2.length + 2) ('*' :: '*' :: l2) = _
  have hr : rem.length < l2.length := boldClose_length hbc
  simp only [boldReplaceF, if_true, eq_self_iff_true, hbc]
  rw [boldReplaceF_congr (l2.length + 1) rem.length rem (by omega) (by omega)]
  rfl

theorem boldReplace_nomatch {l2 : List Char} (hbc : boldClose l2 = none) :
    boldReplace ('*' :: '*' :: l2) = '*' :: boldReplace ('*' :: l2) := by
  show boldReplaceF (l2.length + 2) ('*' :: '*' :: l2)
      = '*' :: boldReplaceF (l2.length + 1) ('*' :: l2)
  conv_lhs => rw [boldReplaceF]
  simp only [if_true, eq_self_iff_true, hbc]

/-- `.replace(/\n/g, "<br/>")` (a global single-character regex replace). -/
def brReplace (l : List Char) : List Char :=
  (l.map (fun c => if c = '\n' then brT else [c])).flatten

/-- `mdLite` (App.jsx line 52): escape the five HTML metacharacters first,
then the bold substitution, then the newline substitution. -/
def mdLite (l : List Char) : List Char := brReplace (boldReplace (escapeHtml l))

/-! ## Token decomposition of sanitized output

A `Tok` is one atom of `mdLite` output: a tag inserted by the two
substitutions, an entity inserted by `escapeHtml`, or one plain character.
`mdLite`'s security contract is that its output flattens from safe tokens:
every `<` and `>` lies inside an inserted `<strong>`, `</strong>` or
`<br/>` tag, every `&` starts an inserted entity, and every remaining raw
character is none of `<`, `>`, `&`. -/

inductive Tok where
  | strongOpen
  | strongClose
  | br
  | amp
  | lt
  | gt
  | quot
  | apos
  | raw (c : Char)
deriving DecidableEq

def Tok.chars : Tok → List Char
  | .strongOpen => strongOpenT
  | .strongClose => strongCloseT
  | .br => brT
  | .amp => ampE
  | .lt => ltE
  | .gt => gtE
  | .quot => quotE
  | .apos => aposE
  | .raw c => [c]

/-- A raw character is safe when it is none of the three HTML-active
metacharacters; inserted tags and entities are safe as wholes. -/
def Tok.safe : Tok → Prop
  | .raw c => c ≠ '<' ∧ c ≠ '>' ∧ c ≠ '&'
  | _ => True

def flattenToks (ts : List Tok) : List Char := (ts.map Tok.chars).flatten

theorem flattenToks_nil : flattenToks [] = [] := rfl

theorem flattenToks_cons (t : Tok) (ts : List Tok) :
    flattenToks (t :: ts) = t.chars ++ flattenToks ts := by
  simp [flattenToks]

theorem flattenToks_append (a b : List Tok) :
    flattenToks (a ++ b) = flattenToks a ++ flattenToks b := by
  simp [flattenToks]

theorem tok_chars_ne_nil (t : Tok) : t.chars ≠ [] := by
  cases t <;> simp [Tok.chars, strongOpenT, strongCloseT, brT, ampE, ltE, gtE, quotE, aposE]

theorem flattenToks_eq_nil {ts : List Tok} (h : flattenToks ts = []) : ts = [] := by
  cases ts with
  | nil => rfl
  | cons t ts =>
    rw [flattenToks_cons] at h
    exact absurd (List.append_eq_nil.mp h).1 (tok_chars_ne_nil t)

/-! ## The escape pass produces safe, tag-free tokens -/

/-- The single token `escapeHtml` turns one input character into. -/
def escTok (c : Char) : Tok :=
  if c = '&' then .amp
  else if c = '<' then .lt
  else if c = '>' then .gt
  else if c = '"' then .quot
  else if c = '\'' then .apos
  else .raw c

theorem escTok_safe (c : Char) : (escTok c).safe := by
  unfold escTok
  split_ifs with h1 h2 h3 h4 h5
  · trivial
  · trivial
  · trivial
  · trivial
  · trivial
  · exact ⟨h2, h3, h1⟩

theorem replaceAllChar_append (ch : Char) (rep l1 l2 : List Char) :
    replaceAllChar ch rep (l1 ++ l2)
      = replaceAllChar ch rep l1 ++ replaceAllChar ch rep l2 := by
  simp [replaceAllChar]

theorem escapeHtml_append (l1 l2 : List Char) :
    escapeHtml (l1 ++ l2) = escapeHtml l1 ++ escapeHtml l2 := by
  simp [escapeHtml, replaceAllChar_append]

theorem escapeHtml_single (c : Char) : escapeHtml [c] = (escTok c).chars := by
  by_cases h1 : c = '&'
  · subst h1; decide
  by_cases h2 : c = '<'
  · subst h2; decide
  by_cases h3 : c = '>'
  · subst h3; decide
  by_cases h4 : c = '"'
  · subst h4; decide
  by_cases h5 : c = '\''
  · subst h5; decide
  simp [escapeHtml, replaceAllChar, escTok, Tok.chars, h1, h2, h3, h4, h5]

theorem escapeHtml_tokens (l : List Char) :
    escapeHtml l = flattenToks (l.map escTok) := by
  induction l with
  | nil => rfl
  | cons c l ih =>
    rw [show c :: l = [c] ++ l from rfl, escapeHtml_append, escapeHtml_single, ih,
        List.map_append, flattenToks_append]
    simp [flattenToks]

/-! ## The bold pass maps safe tokens to safe tokens -/

theorem no_star_prefix_split : ∀ {e rest l1 l2 : List Char}, '*' ∉ e →
    e ++ rest = l1 ++ '*' :: l2 →
    ∃ l1x, l1 = e ++ l1x ∧ rest = l1x ++ '*' :: l2 := by
  intro e
  induction e with
  | nil =>
    intro rest l1 l2 _ h
    exact ⟨l1, rfl, by simpa using h⟩
  | cons x e ih =>
    intro rest l1 l2 hstar h
    cases l1 with
    | nil =>
      rw [List.cons_append, List.nil_append] at h
      injection h with hx _
      exact absurd (hx ▸ List.mem_cons_self x e) hstar
    | cons y l1x =>
      rw [List.cons_append, List.cons_append] at h
      injection h with hxy h2
      obtain ⟨l1z, hA, hB⟩ := ih (fun hm => hstar (List.mem_cons_of_mem x hm)) h2
      exact ⟨l1z, by rw [hA, ← hxy]; rfl, hB⟩

theorem flattenToks_split_star : ∀ (ts : List Tok) (l1 l2 : List Char),
    flattenToks ts = l1 ++ '*' :: l2 →
    ∃ ts1 ts2, ts = ts1 ++ Tok.raw '*' :: ts2
      ∧ flattenToks ts1 = l1 ∧ flattenToks ts2 = l2 := by
  intro ts
  induction ts with
  | nil =>
    intro l1 l2 h
    rw [flattenToks_nil] at h
    exact absurd h.symm (by simp)
  | cons t ts ih =>
    intro l1 l2 h
    rw [flattenToks_cons] at h
    cases t
    case raw c =>
      rw [show Tok.chars (.raw c) = [c] from rfl, List.singleton_append] at h
      cases l1 with
      | nil =>
        rw [List.nil_append] at h
        injection h with h1 h2
        subst h1
        exact ⟨[], ts, rfl, rfl, h2⟩
      | cons d l1x =>
        rw [List.cons_append] at h
        injection h with h1 h2
        subst h1
        obtain ⟨ts1, ts2, hts, hf1, hf2⟩ := ih l1x l2 h2
        refine ⟨.raw c :: ts1, ts2, by rw [hts]; rfl, ?_, hf2⟩
        rw [flattenToks_cons, hf1]
        rfl
    all_goals {
      obtain ⟨l1x, hl1, hrest⟩ := no_star_prefix_split (by decide) h
      obtain ⟨ts1, ts2, hts, hf1, hf2⟩ := ih l1x l2 hrest
      subst hts
      subst hl1
      subst hf1
      exact ⟨_ :: ts1, ts2, rfl, by rw [flattenToks_cons], hf2⟩
    }

theorem flattenToks_cons_star {ts : List Tok} {l : List Char}
    (h : flattenToks ts = '*' :: l) :
    ∃ ts2, ts = Tok.raw '*' :: ts2 ∧ flattenToks ts2 = l := by
  obtain ⟨ts1, ts2, hts, h1, h2⟩ := flattenToks_split_star ts [] l (by simpa using h)
  have h0 : ts1 = [] := flattenToks_eq_nil h1
  subst h0
  exact ⟨ts2, by simpa using hts, h2⟩

theorem boldReplace_no_star_append {p : List Char} (hp : '*' ∉ p) (l : List Char) :
    boldReplace (p ++ l) = p ++ boldReplace l := by
  induction p with
  | nil => simp
  | cons c p ih =>
    have hc : c ≠ '*' := fun h => hp (h ▸ List.mem_cons_self c p)
    rw [List.cons_append, boldReplace_cons_ne hc,
        ih (fun hm => hp (List.mem_cons_of_mem c hm))]
    rfl

theorem bold_step_no_star {t : Tok} (hstar : '*' ∉ t.chars) (hts : t.safe)
    {ts' us : List Tok} (hus : ∀ u ∈ us, u.safe)
    (hbr : boldReplace (flattenToks ts') = flattenToks us) :
    (∀ u ∈ t :: us, u.safe)
      ∧ boldReplace (flattenToks (t :: ts')) = flattenToks (t :: us) := by
  constructor
  · intro u hu
    rcases List.mem_cons.mp hu with h | h
    · subst h; exact hts
    · exact hus u h
  · rw [flattenToks_cons, boldReplace_no_star_append hstar, hbr, flattenToks_cons]

/-- The global lazy bold substitution maps a flattened list of safe tokens
to a flattened list of safe tokens: match boundaries always fall on `*`
characters, which are their own raw tokens (no tag or entity contains
`*`), so captures never cut a tag or an entity apart. -/
theorem boldReplace_tokens : ∀ (n : Nat) (ts : List Tok), ts.length ≤ n →
    (∀ t ∈ ts, t.safe) →
    ∃ us, (∀ u ∈ us, u.safe) ∧ boldReplace (flattenToks ts) = flattenToks us := by
  intro n
  induction n with
  | zero =>
    intro ts hlen _
    have h0 : ts = [] := List.eq_nil_of_length_eq_zero (Nat.le_zero.mp hlen)
    subst h0
    exact ⟨[], by simp, rfl⟩
  | succ n ih =>
    intro ts hlen hsafe
    cases ts with
    | nil => exact ⟨[], by simp, rfl⟩
    | cons t ts' =>
      simp only [List.length_cons, Nat.add_le_add_iff_right] at hlen
      have hsafe' : ∀ u ∈ ts', u.safe := fun u hu => hsafe u (List.mem_cons_of_mem t hu)
      cases t
      case raw c =>
        by_cases hc : c = '*'
        · subst hc
          cases hf : flattenToks ts' with
          | nil =>
            refine ⟨[.raw '*'], ?_, ?_⟩
            · intro u hu
              rcases List.mem_cons.mp hu with h | h
              · subst h; exact ⟨by decide, by decide, by decide⟩
              · cases h
            · rw [flattenToks_cons, hf, show Tok.chars (.raw '*') = ['*'] from rfl,
                  List.append_nil, boldReplace_single_star]
              rfl
          | cons c2 l2 =>
            by_cases hc2 : c2 = '*'
            · subst hc2
              cases hbc : boldClose l2 with
              | none =>
                obtain ⟨us, hus, hbr⟩ := ih ts' hlen hsafe'
                refine ⟨.raw '*' :: us, ?_, ?_⟩
                · intro u hu
                  rcases List.mem_cons.mp hu with h | h
                  · subst h; exact ⟨by decide, by decide, by decide⟩
                  · exact hus u h
                · rw [flattenToks_cons, show Tok.chars (.raw '*') = ['*'] from rfl,
                      hf, List.singleton_append, boldReplace_nomatch hbc, ← hf,
                      hbr, flattenToks_cons]
                  rfl
              | some pr =>
                obtain ⟨cap, rem⟩ := pr
                obtain ⟨hl2, hcapne⟩ := boldClose_spec hbc
                obtain ⟨tsb, hts', hfb⟩ := flattenToks_cons_star hf
                obtain ⟨tsa, tsb2, htsb, hfa, hfb2⟩ :=
                  flattenToks_split_star tsb cap ('*' :: rem) (by rw [hfb, hl2])
                obtain ⟨tsc, htsb2, hfc⟩ := flattenToks_cons_star hfb2
                have hlenc : tsc.length ≤ n := by
                  have h1 := congrArg List.length hts'
                  have h2 := congrArg List.length htsb
                  have h3 := congrArg List.length htsb2
                  simp [List.length_append] at h1 h2 h3
                  omega
                have hsafec : ∀ u ∈ tsc, u.safe := by
                  intro u hu
                  apply hsafe'
                  rw [hts', htsb, htsb2]
                  exact List.mem_cons_of_mem _ (List.mem_append_right tsa
                    (List.mem_cons_of_mem _ (List.mem_cons_of_mem _ hu)))
                obtain ⟨usc, husc, hbrc⟩ := ih tsc hlenc hsafec
                refine ⟨.strongOpen :: tsa ++ .strongClose :: usc, ?_, ?_⟩
                · intro u hu
                  rcases List.mem_cons.mp hu with h | h
                  · subst h; trivial
                  rcases List.mem_append.mp h with h | h
                  · apply hsafe'
                    rw [hts', htsb]
                    exact List.mem_cons_of_mem _ (List.mem_append_left _ h)
                  rcases List.mem_cons.mp h with h | h
                  · subst h; trivial
                  · exact husc u h
                · rw [flattenToks_cons, show Tok.chars (.raw '*') = ['*'] from rfl,
                      hf, List.singleton_append, boldReplace_match hbc]
                  rw [hfc] at hbrc
                  rw [hbrc]
                  rw [show (Tok.strongOpen :: tsa ++ Tok.strongClose :: usc : List Tok)
                        = (Tok.strongOpen :: tsa) ++ (Tok.strongClose :: usc) from rfl,
                      flattenToks_append, flattenToks_cons, flattenToks_cons, hfa]
                  simp [Tok.chars, List.append_assoc]
            · obtain ⟨us, hus, hbr⟩ := ih ts' hlen hsafe'
              refine ⟨.raw '*' :: us, ?_, ?_⟩
              · intro u hu
                rcases List.mem_cons.mp hu with h | h
                · subst h; exact ⟨by decide, by decide, by decide⟩
                · exact hus u h
              · rw [flattenToks_cons, show Tok.chars (.raw '*') = ['*'] from rfl,
                    hf, List.singleton_append, boldReplace_star_cons_ne hc2, ← hf,
                    hbr, flattenToks_cons]
                rfl
        · obtain ⟨us, hus, hbr⟩ := ih ts' hlen hsafe'
          obtain ⟨h1, h2⟩ := bold_step_no_star (t := .raw c)
            (by simp [Tok.chars]; exact fun h => hc h.symm)
            (hsafe (.raw c) (List.mem_cons_self _ _)) hus hbr
          exact ⟨.raw c :: us, h1, h2⟩
      case strongOpen =>
        obtain ⟨us, hus, hbr⟩ := ih ts' hlen hsafe'
        obtain ⟨h1, h2⟩ := bold_step_no_star (t := .strongOpen) (by decide) trivial hus hbr
        exact ⟨.strongOpen :: us, h1, h2⟩
      case strongClose =>
        obtain ⟨us, hus, hbr⟩ := ih ts' hlen hsafe'
        obtain ⟨h1, h2⟩ := bold_step_no_star (t := .strongClose) (by decide) trivial hus hbr
        exact ⟨.strongClose :: us, h1, h2⟩
      case br =>
        obtain ⟨us, hus, hbr⟩ := ih ts' hlen hsafe'
        obtain ⟨h1, h2⟩ := bold_step_no_star (t := .br) (by decide) trivial hus hbr
        exact ⟨.br :: us, h1, h2⟩
      case amp =>
        obtain ⟨us, hus, hbr⟩ := ih ts' hlen hsafe'
        obtain ⟨h1, h2⟩ := bold_step_no_star (t := .amp) (by decide) trivial hus hbr
        exact ⟨.amp :: us, h1, h2⟩
      case lt =>
        obtain ⟨us, hus, hbr⟩ := ih ts' hlen hsafe'
        obtain ⟨h1, h2⟩ := bold_step_no_star (t := .lt) (by decide) trivial hus hbr
        exact ⟨.lt :: us, h1, h2⟩
      case gt =>
        obtain ⟨us, hus, hbr⟩ := ih ts' hlen hsafe'
        obtain ⟨h1, h2⟩ := bold_step_no_star (t := .gt) (by decide) trivial hus hbr
        exact ⟨.gt :: us, h1, h2⟩
      case quot =>
        obtain ⟨us, hus, hbr⟩ := ih ts' hlen hsafe'
        obtain ⟨h1, h2⟩ := bold_step_no_star (t := .quot) (by decide) trivial hus hbr
        exact ⟨.quot :: us, h1, h2⟩
      case apos =>
        obtain ⟨us, hus, hbr⟩ := ih ts' hlen hsafe'
        obtain ⟨h1, h2⟩ := bold_step_no_star (t := .apos) (by decide) trivial hus hbr
        exact ⟨.apos :: us, h1, h2⟩

/-! ## The newline pass maps safe tokens to safe tokens -/

/-- The token(s) the newline substitution turns one token into: a raw
newline becomes the `<br/>` tag, everything else is untouched (no tag or
entity contains a newline). -/
def brTok : Tok → List Tok
  | .raw c => if c = '\n' then [.br] else [.raw c]
  | t => [t]

theorem brReplace_append (l1 l2 : List Char) :
    brReplace (l1 ++ l2) = brReplace l1 ++ brReplace l2 := by
  simp [brReplace]

theorem brReplace_chars (t : Tok) : brReplace t.chars = flattenToks (brTok t) := by
  cases t
  case raw c =>
    by_cases hc : c = '\n' <;> simp [brReplace, brTok, Tok.chars, flattenToks, hc]
  all_goals decide

theorem brTok_safe {t : Tok} (ht : t.safe) : ∀ u ∈ brTok t, u.safe := by
  intro u hu
  cases t
  case raw c =>
    by_cases hc : c = '\n'
    · simp [brTok, hc] at hu; subst hu; trivial
    · simp [brTok, hc] at hu; subst hu; exact ht
  all_goals (simp [brTok] at hu; subst hu; trivial)

theorem brReplace_tokens (ts : List Tok) :
    brReplace (flattenToks ts) = flattenToks ((ts.map brTok).flatten) := by
  induction ts with
  | nil => rfl
  | cons t ts ih =>
    rw [flattenToks_cons, brReplace_append, brReplace_chars, ih,
        List.map_cons, List.flatten_cons, flattenToks_append]

/-! ## Claim C1: the sanitizing renderer -/

/-- C1: `mdLite` escapes the five HTML metacharacters (`&` `<` `>` `"` `'`)
unconditionally before the two pattern substitutions are applied (first
conjunct, the definitional pipeline order), and for every input the output
is a flattening of safe tokens: every `<` or `>` in the output lies inside
one of the two inserted tag types (the bold element `<strong>…</strong>`
or the line break `<br/>`), every `&` begins an inserted entity, and every
remaining character is none of `<`, `>`, `&` — so no unescaped `<`, `>` or
`&` survives, even when bold/newline syntax is mixed with angle brackets. -/
theorem mdLite_safe (s : List Char) :
    mdLite s = brReplace (boldReplace (escapeHtml s))
    ∧ ∃ ts : List Tok, (∀ t ∈ ts, t.safe) ∧ mdLite s = flattenToks ts := by
  refine ⟨rfl, ?_⟩
  obtain ⟨us, hus, hbold⟩ := boldReplace_tokens (s.map escTok).length (s.map escTok)
    le_rfl (fun t ht => by obtain ⟨c, _, rfl⟩ := List.mem_map.mp ht; exact escTok_safe c)
  refine ⟨(us.map brTok).flatten, ?_, ?_⟩
  · intro u hu
    obtain ⟨l, hl, hu2⟩ := List.mem_flatten.mp hu
    obtain ⟨t, htus, rfl⟩ := List.mem_map.mp hl
    exact brTok_safe (hus t htus) u hu2
  · rw [show mdLite s = brReplace (boldReplace (escapeHtml s)) from rfl,
        escapeHtml_tokens, hbold, brReplace_tokens]

/-! ## Session store and send pipeline (App.jsx lines 59-71 and 148-269) -/

inductive Role where
  | user
  | assistant
deriving DecidableEq

structure Message where
  role : Role
  text : List Char
deriving DecidableEq

structure Session where
  id : String
  title : List Char
  messages : List Message
  createdAt : Nat
deriving DecidableEq

/-- `newSession` (App.jsx line 59); the `crypto.randomUUID()` id and the
`Date.now()` timestamp are supplied by the environment. -/
def newSession (id : String) (now : Nat) : Session :=
  { id := id
    title := "New chat".data
    messages := [{ role := .assistant,
                   text := "Hi! Ask me about banking cyber safety. မြန်မာလိုလည်း မေးနိုင်ပါတယ်။".data }]
    createdAt := now }

/-- The component state the send pipeline touches: the session collection
and active pointer, the input box, the `busy` flag, and the two send-guard
refs (`sendingRef` and `lastSendRef = {text, t}`). -/
structure AppState where
  sessions : List Session
  activeId : String
  input : List Char
  busy : Bool
  sendingRef : Bool
  lastText : List Char
  lastT : Nat
deriving DecidableEq

/-- `setActiveSession(updater)` (App.jsx line 161): map the updater over
every session whose id equals the `activeId` captured by the closure that
created the call — for streaming callbacks that is the active id at send
start, not the active id at update time. -/
def setActiveSession (sid : String) (f : Session → Session)
    (sessions : List Session) : List Session :=
  sessions.map (fun s => if s.id = sid then f s else s)

/-- `appendUserMessage` (App.jsx line 164): append the user message; a
fresh session is retitled from the text (`text.slice(0, 32) || "New chat"`). -/
def appendUserMessage (sid : String) (text : List Char)
    (sessions : List Session) : List Session :=
  setActiveSession sid (fun s =>
    { s with
      title := if s.title = "New chat".data
               then (if text.take 32 = [] then "New chat".data else text.take 32)
               else s.title
      messages := s.messages ++ [{ role := .user, text := text }] }) sessions

/-- `onDeleteSession` (App.jsx line 186): filter the session out; if it was
active, activate `next[0]` or create a fresh session; never return an
empty collection. -/
def onDeleteSession (st : AppState) (id : String) (freshId : String) (now : Nat) :
    AppState :=
  let next := st.sessions.filter (fun s => s.id != id)
  if id = st.activeId then
    match next with
    | [] =>
      let ns := newSession freshId now
      { st with sessions := [ns], activeId := ns.id }
    | s0 :: rest => { st with sessions := s0 :: rest, activeId := s0.id }
  else
    { st with sessions := match next with
                          | [] => [newSession freshId now]
                          | s0 :: rest => s0 :: rest }

/-- The send-guard state (`sendingRef.current`, `lastSendRef.current`). -/
structure Guard where
  inFlight : Bool
  lastText : List Char
  lastT : Nat
deriving DecidableEq

/-- The guard section of `send` (App.jsx lines 205-211), in source order:
the duplicate check reads `lastSendRef` and rejects (guard unchanged) if
the text equals the last sent text within 1200 ms; otherwise `lastSendRef`
is recorded and only then is `sendingRef` consulted, so a send rejected
because one is in flight still records `lastSent`. -/
def tryAcquire (g : Guard) (text : List Char) (now : Nat) : Bool × Guard :=
  if text = g.lastText ∧ now - g.lastT < 1200 then (false, g)
  else
    let g1 := { g with lastText := text, lastT := now }
    if g.inFlight then (false, g1)
    else (true, { g1 with inFlight := true })

/-- In-place update of one list element (`msgs[i] = f msgs[i]`), a no-op
out of bounds — the JS code guards with
`assistantIndex >= 0 && assistantIndex < msgs.length`. -/
def modifyIdx : List α → Nat → (α → α) → List α
  | [], _, _ => []
  | a :: l, 0, f => f a :: l
  | a :: l, n + 1, f => a :: modifyIdx l n f

/-- One live streaming update (App.jsx lines 234-240): in the session with
the captured id, replace the text of the message at the captured
`assistantIndex` by the accumulator (the object spread keeps the role). -/
def chunkWrite (sid : String) (idx : Nat) (acc : List Char)
    (sessions : List Session) : List Session :=
  setActiveSession sid (fun s =>
    { s with messages := modifyIdx s.messages idx (fun m => { m with text := acc }) })
    sessions

/-- The `chatStream` fragment callback (App.jsx lines 229-241): a falsy
(empty) chunk is ignored; otherwise it is appended to the accumulator and
the captured session/index is updated with the accumulator's new value. -/
def applyChunk (sid : String) (idx : Nat) (st : List Char × List Session)
    (chunk : List Char) : List Char × List Session :=
  if chunk = [] then st
  else
    let acc := st.1 ++ chunk
    (acc, chunkWrite sid idx acc st.2)

/-- A JavaScript error value; the send path reads only `message`
(`"Server error: " + (e?.message || "")`), never `name`. -/
structure JsError where
  name : String
  message : List Char
deriving DecidableEq

/-- The outcome of one `chatStream` call: the ordered fragment sequence of
a successful stream, or a thrown error. -/
inductive SendOutcome where
  | success (frags : List (List Char))
  | failure (e : JsError)
deriving DecidableEq

/-- `send` (App.jsx line 201), with the wall clock and the transport
outcome as inputs; steps in source order: trim, reject empty input or
missing active session, the guard section, clear input / set `busy`,
append the user message, append the empty placeholder and capture
`assistantIndex`, apply the stream chunks (or replace the placeholder
with `"Server error: " + e.message` on a thrown error), and finally
release `busy` and `sendingRef`. -/
def send (st : AppState) (now : Nat) (outcome : SendOutcome) : AppState :=
  let text := jsTrim st.input
  if text = [] then st
  else if (st.sessions.find? (fun s => s.id == st.activeId)).isNone then st
  else
    match tryAcquire ⟨st.sendingRef, st.lastText, st.lastT⟩ text now with
    | (false, g) =>
      { st with sendingRef := g.inFlight, lastText := g.lastText, lastT := g.lastT }
    | (true, g) =>
      let sid := st.activeId
      let ss1 := appendUserMessage sid text st.sessions
      let ss2 := setActiveSession sid
        (fun s => { s with messages := s.messages ++ [{ role := .assistant, text := [] }] })
        ss1
      let idx := match ss2.find? (fun s => s.id == sid) with
                 | some s => s.messages.length - 1
                 | none => 0
      let ss3 := match outcome with
                 | .success frags => (frags.foldl (applyChunk sid idx) ([], ss2)).2
                 | .failure e =>
                   let errM : Message :=
                     { role := .assistant, text := "Server error: ".data ++ e.message }
                   setActiveSession sid (fun s =>
                     { s with messages := modifyIdx s.messages idx (fun _ => errM) }) ss2
      { st with sessions := ss3, input := [], busy := false,
                sendingRef := false, lastText := g.lastText, lastT := g.lastT }

/-! ## Claim C6: deleteSession invariants -/

/-- C6: `onDeleteSession` never leaves the collection empty and never
leaves `activeId` naming a session outside the collection; deleting the
only remaining session yields exactly one fresh default session, and
deleting the active session activates the first remaining session. -/
theorem onDeleteSession_invariants (st : AppState) (id freshId : String) (now : Nat)
    (hact : st.activeId ∈ st.sessions.map Session.id) :
    (onDeleteSession st id freshId now).sessions ≠ []
    ∧ (onDeleteSession st id freshId now).activeId
        ∈ (onDeleteSession st id freshId now).sessions.map Session.id
    ∧ (∀ s0, st.sessions = [s0] → s0.id = id →
        (onDeleteSession st id freshId now).sessions = [newSession freshId now]
        ∧ (onDeleteSession st id freshId now).activeId = freshId)
    ∧ (∀ s0 rest, id = st.activeId →
        st.sessions.filter (fun s => s.id != id) = s0 :: rest →
        (onDeleteSession st id freshId now).sessions = s0 :: rest
        ∧ (onDeleteSession st id freshId now).activeId = s0.id) := by
  by_cases hid : id = st.activeId
  · cases hnext : st.sessions.filter (fun s => s.id != id) with
    | nil =>
      have hres : onDeleteSession st id freshId now
          = { st with sessions := [newSession freshId now], activeId := freshId } := by
        unfold onDeleteSession
        rw [hnext, if_pos hid]
        rfl
      refine ⟨by rw [hres]; simp, by rw [hres]; simp [newSession], ?_, ?_⟩
      · intro s0 _ _
        rw [hres]
        exact ⟨rfl, rfl⟩
      · intro s0 rest _ hfil
        exact absurd hfil (by simp)
    | cons n0 nrest =>
      have hres : onDeleteSession st id freshId now
          = { st with sessions := n0 :: nrest, activeId := n0.id } := by
        unfold onDeleteSession
        rw [hnext, if_pos hid]
      refine ⟨by rw [hres]; simp, by rw [hres]; simp, ?_, ?_⟩
      · intro s0 hs hsid
        exfalso
        have hfil0 : List.filter (fun s => s.id != id) [s0] = [] := by
          simp [hsid]
        rw [hs, hfil0] at hnext
        exact absurd hnext (by simp)
      · intro s0 rest _ hfil
        injection hfil with h1 h2
        subst h1
        subst h2
        rw [hres]
        exact ⟨rfl, rfl⟩
  · obtain ⟨sA, hsA, hsAid⟩ : ∃ s ∈ st.sessions, s.id = st.activeId := by
      obtain ⟨s, hs, hsid⟩ := List.mem_map.mp hact
      exact ⟨s, hs, hsid⟩
    have hmemA : sA ∈ st.sessions.filter (fun s => s.id != id) := by
      rw [List.mem_filter]
      refine ⟨hsA, ?_⟩
      simp only [bne_iff_ne, ne_eq]
      rw [hsAid]
      exact fun hcon => hid hcon.symm
    cases hnext : st.sessions.filter (fun s => s.id != id) with
    | nil => rw [hnext] at hmemA; cases hmemA
    | cons n0 nrest =>
      have hres : onDeleteSession st id freshId now
          = { st with sessions := n0 :: nrest } := by
        unfold onDeleteSession
        rw [hnext, if_neg hid]
      rw [hnext] at hmemA
      refine ⟨by rw [hres]; simp, ?_, ?_, ?_⟩
      · rw [hres]
        show st.activeId ∈ (n0 :: nrest).map Session.id
        exact List.mem_map.mpr ⟨sA, hmemA, hsAid⟩
      · intro s0 hs hsid
        exfalso
        rw [hs] at hact
        simp at hact
        exact hid (hact.trans hsid).symm
      · intro s0 rest hcontra _
        exact absurd hcontra hid

/-- C6 witness: deleting the active one of two sessions activates the
remaining one; deleting the only session yields one fresh session. -/
theorem onDeleteSession_invariants_witness :
    (onDeleteSession
        ⟨[newSession "a" 0, newSession "b" 0], "a", [], false, false, [], 0⟩
        "a" "f" 5).sessions ≠ []
    ∧ (onDeleteSession
        ⟨[newSession "a" 0, newSession "b" 0], "a", [], false, false, [], 0⟩
        "a" "f" 5).activeId
        ∈ (onDeleteSession
            ⟨[newSession "a" 0, newSession "b" 0], "a", [], false, false, [], 0⟩
            "a" "f" 5).sessions.map Session.id
    ∧ (onDeleteSession ⟨[newSession "a" 0], "a", [], false, false, [], 0⟩
        "a" "f" 5).sessions = [newSession "f" 5] := by
  refine ⟨?_, ?_, ?_⟩
  · exact (onDeleteSession_invariants
      ⟨[newSession "a" 0, newSession "b" 0], "a", [], false, false, [], 0⟩
      "a" "f" 5 (by decide)).1
  · exact (onDeleteSession_invariants
      ⟨[newSession "a" 0, newSession "b" 0], "a", [], false, false, [], 0⟩
      "a" "f" 5 (by decide)).2.1
  · exact ((onDeleteSession_invariants
      ⟨[newSession "a" 0], "a", [], false, false, [], 0⟩
      "a" "f" 5 (by decide)).2.2.1 (newSession "a" 0) rfl rfl).1

/-! ## Claim C7: streamed fragment updates target the captured session -/

theorem modifyIdx_last (init : List α) (m : α) (f : α → α) :
    modifyIdx (init ++ [m]) init.length f = init ++ [f m] := by
  induction init with
  | nil => rfl
  | cons a init ih =>
    show a :: modifyIdx (init ++ [m]) init.length f = a :: (init ++ [f m])
    rw [ih]

theorem get_map_at {α β : Type} {f : α → β} : ∀ (l : List α) (i : Nat)
    (h : i < l.length) (h' : i < (l.map f).length),
    (l.map f).get ⟨i, h'⟩ = f (l.get ⟨i, h⟩) := by
  intro l
  induction l with
  | nil => intro i h _; exact absurd h (by simp)
  | cons a l ih =>
    intro i h h'
    cases i with
    | zero => rfl
    | succ j => exact ih j (by simpa using h) (by simpa using h')

/-- C7: a streamed fragment update is applied with the session id captured
at send start (`chunkWrite` takes that id, never the currently active
one): if no session carries the captured id any more the whole collection
is unchanged (the update is dropped); a session with a different id is
never modified; and a session with the captured id whose trailing message
is still the placeholder at the captured index gets exactly that trailing
assistant message's text replaced, keeping the role. -/
theorem chunkWrite_frame (sessions : List Session) (sid : String) (idx : Nat)
    (acc : List Char) :
    ((∀ s ∈ sessions, s.id ≠ sid) → chunkWrite sid idx acc sessions = sessions)
    ∧ (chunkWrite sid idx acc sessions).length = sessions.length
    ∧ (∀ i (h : i < sessions.length) (h' : i < (chunkWrite sid idx acc sessions).length),
        ((sessions.get ⟨i, h⟩).id ≠ sid →
          (chunkWrite sid idx acc sessions).get ⟨i, h'⟩ = sessions.get ⟨i, h⟩)
        ∧ (∀ init m, (sessions.get ⟨i, h⟩).id = sid →
            (sessions.get ⟨i, h⟩).messages = init ++ [m] →
            idx = init.length → m.role = .assistant →
            (chunkWrite sid idx acc sessions).get ⟨i, h'⟩
              = { sessions.get ⟨i, h⟩ with
                  messages := init ++ [{ role := .assistant, text := acc }] })) := by
  refine ⟨?_, ?_, ?_⟩
  · intro hall
    unfold chunkWrite setActiveSession
    have hcongr : sessions.map
        (fun s => if s.id = sid
          then { s with messages := modifyIdx s.messages idx (fun m => { m with text := acc }) }
          else s) = sessions.map id := by
      apply List.map_congr_left
      intro s hs
      rw [if_neg (hall s hs)]
      rfl
    rw [hcongr, List.map_id]
  · unfold chunkWrite setActiveSession
    exact List.length_map _ _
  · intro i h h'
    constructor
    · intro hne
      unfold chunkWrite setActiveSession
      rw [get_map_at sessions i h, if_neg hne]
    · intro init m hsid hmsgs hidx hrole
      unfold chunkWrite setActiveSession
      rw [get_map_at sessions i h, if_pos hsid]
      dsimp only
      rw [hmsgs, hidx, modifyIdx_last, hrole]

/-- C7 witness: a concrete collection; an update whose captured id has been
deleted is a no-op, and an update for a live captured id rewrites only the
trailing placeholder of that session. -/
theorem chunkWrite_frame_witness :
    chunkWrite "z" 1 "x".data [newSession "b" 1] = [newSession "b" 1]
    ∧ (chunkWrite "a" 1 "hi".data
        [⟨"a", "T".data, [⟨.user, "q".data⟩, ⟨.assistant, []⟩], 0⟩, newSession "b" 1]).get
        ⟨0, by decide⟩
      = ⟨"a", "T".data, [⟨.user, "q".data⟩, ⟨.assistant, "hi".data⟩], 0⟩ := by
  constructor
  · exact (chunkWrite_frame [newSession "b" 1] "z" 1 "x".data).1 (by decide)
  · exact ((chunkWrite_frame
      [⟨"a", "T".data, [⟨.user, "q".data⟩, ⟨.assistant, []⟩], 0⟩, newSession "b" 1]
      "a" 1 "hi".data).2.2 0 (by decide) (by decide)).2
      [⟨.user, "q".data⟩] ⟨.assistant, []⟩ rfl rfl rfl rfl

/-! ## Shape of one completed send -/

theorem find?_map_id_pres {f : Session → Session} (hf : ∀ s, (f s).id = s.id)
    (sid : String) : ∀ l : List Session,
    (l.map f).find? (fun s => s.id == sid) = (l.find? (fun s => s.id == sid)).map f := by
  intro l
  induction l with
  | nil => rfl
  | cons a l ih =>
    by_cases hpa : (a.id == sid) = true
    · have hfa : ((f a).id == sid) = true := by rw [hf a]; exact hpa
      rw [List.map_cons,
          List.find?_cons_of_pos (p := fun s : Session => s.id == sid) _ hfa,
          List.find?_cons_of_pos (p := fun s : Session => s.id == sid) _ hpa]
      rfl
    · have hfa : ¬((f a).id == sid) = true := by rw [hf a]; exact hpa
      rw [List.map_cons,
          List.find?_cons_of_neg (p := fun s : Session => s.id == sid) _ hfa,
          List.find?_cons_of_neg (p := fun s : Session => s.id == sid) _ hpa, ih]

theorem setActiveSession_comp (sid : String) (f g : Session → Session)
    (hgid : ∀ s, (g s).id = s.id) (sessions : List Session) :
    setActiveSession sid f (setActiveSession sid g sessions)
      = setActiveSession sid (fun s => f (g s)) sessions := by
  unfold setActiveSession
  rw [List.map_map]
  apply List.map_congr_left
  intro s _
  by_cases h : s.id = sid
  · simp only [Function.comp_apply, if_pos h, if_pos ((hgid s).trans h)]
  · simp only [Function.comp_apply, if_neg h]

theorem modifyIdx_comp : ∀ (l : List α) (i : Nat) (f g : α → α),
    modifyIdx (modifyIdx l i f) i g = modifyIdx l i (fun a => g (f a)) := by
  intro l
  induction l with
  | nil => intro i f g; rfl
  | cons a l ih =>
    intro i f g
    cases i with
    | zero => rfl
    | succ j =>
      show a :: modifyIdx (modifyIdx l j f) j g = a :: modifyIdx l j (fun a => g (f a))
      rw [ih]

theorem chunkWrite_overwrite (sid : String) (idx : Nat) (a b : List Char)
    (ss : List Session) :
    chunkWrite sid idx a (chunkWrite sid idx b ss) = chunkWrite sid idx a ss := by
  unfold chunkWrite
  rw [setActiveSession_comp sid
        (fun s => { s with messages := modifyIdx s.messages idx (fun m => { m with text := a }) })
        (fun s => { s with messages := modifyIdx s.messages idx (fun m => { m with text := b }) })
        (fun s => rfl)]
  unfold setActiveSession
  apply List.map_congr_left
  intro s _
  by_cases h : s.id = sid
  · simp [if_pos h, modifyIdx_comp]
  · simp only [if_neg h]

theorem flatten_of_all_empty : ∀ {frags : List (List Char)},
    frags.all (fun c => c == []) = true → frags.flatten = [] := by
  intro frags
  induction frags with
  | nil => intro _; rfl
  | cons f frags ih =>
    intro h
    rw [List.all_cons, Bool.and_eq_true] at h
    rw [List.flatten_cons, ih h.2, List.append_nil]
    exact eq_of_beq h.1

theorem foldl_applyChunk (sid : String) (idx : Nat) : ∀ (frags : List (List Char))
    (acc : List Char) (ss : List Session),
    frags.foldl (applyChunk sid idx) (acc, ss)
      = (acc ++ frags.flatten,
         if frags.all (fun c => c == []) = true then ss
         else chunkWrite sid idx (acc ++ frags.flatten) ss) := by
  intro frags
  induction frags with
  | nil => intro acc ss; simp
  | cons f frags ih =>
    intro acc ss
    by_cases hf : f = []
    · subst hf
      rw [List.foldl_cons, show applyChunk sid idx (acc, ss) [] = (acc, ss) from rfl, ih]
      simp
    · have hall : ((f :: frags).all (fun c => c == [])) = false := by
        simp [List.all_cons, hf]
      rw [List.foldl_cons,
          show applyChunk sid idx (acc, ss) f
            = (acc ++ f, chunkWrite sid idx (acc ++ f) ss) from by
              unfold applyChunk; rw [if_neg hf],
          ih, List.flatten_cons]
      by_cases hrest : frags.all (fun c => c == []) = true
      · have hfl : frags.flatten = [] := flatten_of_all_empty hrest
        rw [if_pos hrest, hall, if_neg (by decide), hfl]
        simp
      · rw [if_neg hrest, chunkWrite_overwrite, hall, if_neg (by decide)]
        simp [List.append_assoc]

/-- The transformation a successfully completed send applies to the
targeted session: retitle a fresh session from the (trimmed) text and
append the user message and the settled assistant message. -/
def sentSession (text final : List Char) (s : Session) : Session :=
  { s with
    title := if s.title = "New chat".data
             then (if text.take 32 = [] then "New chat".data else text.take 32)
             else s.title
    messages := s.messages
      ++ [{ role := .user, text := text }, { role := .assistant, text := final }] }

theorem send_success_shape (st : AppState) (now : Nat) (frags : List (List Char))
    (hnodup : (st.sessions.map Session.id).Nodup)
    (htrim : jsTrim st.input ≠ [])
    (s : Session)
    (hfind : st.sessions.find? (fun x => x.id == st.activeId) = some s)
    (hdup : ¬(jsTrim st.input = st.lastText ∧ now - st.lastT < 1200))
    (hflight : st.sendingRef = false) :
    send st now (.success frags)
      = { st with
          sessions := st.sessions.map (fun x => if x.id = st.activeId
              then sentSession (jsTrim st.input) frags.flatten x else x),
          input := [], busy := false, sendingRef := false,
          lastText := jsTrim st.input, lastT := now } := by
  have hsid : s.id = st.activeId := by
    have h := List.find?_some hfind
    simpa using h
  have hacq : tryAcquire ⟨st.sendingRef, st.lastText, st.lastT⟩ (jsTrim st.input) now
      = (true, ⟨true, jsTrim st.input, now⟩) := by
    unfold tryAcquire
    rw [if_neg hdup]
    dsimp only
    rw [hflight, if_neg (by decide)]
  unfold send
  rw [if_neg htrim, if_neg (by rw [hfind]; simp), hacq]
  dsimp only
  -- name the two updaters applied before streaming
  have hcomp : setActiveSession st.activeId
        (fun s => { s with messages := s.messages ++ [{ role := .assistant, text := [] }] })
        (appendUserMessage st.activeId (jsTrim st.input) st.sessions)
      = setActiveSession st.activeId
          (fun x => { x with
            title := if x.title = "New chat".data
                     then (if (jsTrim st.input).take 32 = [] then "New chat".data
                           else (jsTrim st.input).take 32)
                     else x.title
            messages := (x.messages ++ [{ role := .user, text := jsTrim st.input }])
              ++ [{ role := .assistant, text := [] }] }) st.sessions := by
    unfold appendUserMessage
    rw [setActiveSession_comp st.activeId
          (fun s => { s with messages := s.messages ++ [{ role := .assistant, text := [] }] })
          (fun s => { s with
            title := if s.title = "New chat".data
                     then (if (jsTrim st.input).take 32 = [] then "New chat".data
                           else (jsTrim st.input).take 32)
                     else s.title
            messages := s.messages ++ [{ role := .user, text := jsTrim st.input }] })
          (fun x => rfl)]
  rw [hcomp]
  -- the captured assistant index is the placeholder position
  have hfind2 : (setActiveSession st.activeId
        (fun x => { x with
          title := if x.title = "New chat".data
                   then (if (jsTrim st.input).take 32 = [] then "New chat".data
                         else (jsTrim st.input).take 32)
                   else x.title
          messages := (x.messages ++ [{ role := .user, text := jsTrim st.input }])
            ++ [{ role := .assistant, text := [] }] }) st.sessions).find?
        (fun x => x.id == st.activeId)
      = some { s with
          title := if s.title = "New chat".data
                   then (if (jsTrim st.input).take 32 = [] then "New chat".data
                         else (jsTrim st.input).take 32)
                   else s.title
          messages := (s.messages ++ [{ role := .user, text := jsTrim st.input }])
            ++ [{ role := .assistant, text := [] }] } := by
    unfold setActiveSession
    rw [find?_map_id_pres (fun x => by by_cases h : x.id = st.activeId <;> simp [h]) _ _,
        hfind]
    simp [hsid]
  rw [hfind2]
  dsimp only
  rw [foldl_applyChunk]
  by_cases hall : frags.all (fun c => c == []) = true
  · have hfl : frags.flatten = [] := flatten_of_all_empty hall
    rw [if_pos hall, hfl]
    congr 1
    unfold setActiveSession sentSession
    apply List.map_congr_left
    intro x _
    by_cases hx : x.id = st.activeId
    · rw [if_pos hx, if_pos hx]
      simp
    · rw [if_neg hx, if_neg hx]
  · rw [if_neg hall, List.nil_append]
    congr 1
    dsimp only
    unfold chunkWrite
    rw [setActiveSession_comp st.activeId _
          (fun x : Session => { x with
            title := if x.title = "New chat".data
                     then (if (jsTrim st.input).take 32 = [] then "New chat".data
                           else (jsTrim st.input).take 32)
                     else x.title
            messages := (x.messages ++ [{ role := .user, text := jsTrim st.input }])
              ++ [{ role := .assistant, text := [] }] })
          (fun x => rfl)]
    unfold setActiveSession sentSession
    apply List.map_congr_left
    intro x hx
    by_cases hxe : x.id = st.activeId
    · rw [if_pos hxe, if_pos hxe]
      have hxs : x = s := List.inj_on_of_nodup_map hnodup hx
        (List.mem_of_find?_eq_some hfind) (by rw [hxe, hsid])
      subst hxs
      have hlen : ((x.messages ++ [({ role := .user, text := jsTrim st.input } : Message)])
            ++ [({ role := .assistant, text := [] } : Message)]).length - 1
          = (x.messages ++ [({ role := .user, text := jsTrim st.input } : Message)]).length := by
        simp
      dsimp only
      rw [hlen, modifyIdx_last]
      simp
    · rw [if_neg hxe, if_neg hxe]

theorem send_failure_shape (st : AppState) (now : Nat) (e : JsError)
    (hnodup : (st.sessions.map Session.id).Nodup)
    (htrim : jsTrim st.input ≠ [])
    (s : Session)
    (hfind : st.sessions.find? (fun x => x.id == st.activeId) = some s)
    (hdup : ¬(jsTrim st.input = st.lastText ∧ now - st.lastT < 1200))
    (hflight : st.sendingRef = false) :
    send st now (.failure e)
      = { st with
          sessions := st.sessions.map (fun x => if x.id = st.activeId
              then sentSession (jsTrim st.input) ("Server error: ".data ++ e.message) x
              else x),
          input := [], busy := false, sendingRef := false,
          lastText := jsTrim st.input, lastT := now } := by
  have hsid : s.id = st.activeId := by
    have h := List.find?_some hfind
    simpa using h
  have hacq : tryAcquire ⟨st.sendingRef, st.lastText, st.lastT⟩ (jsTrim st.input) now
      = (true, ⟨true, jsTrim st.input, now⟩) := by
    unfold tryAcquire
    rw [if_neg hdup]
    dsimp only
    rw [hflight, if_neg (by decide)]
  unfold send
  rw [if_neg htrim, if_neg (by rw [hfind]; simp), hacq]
  dsimp only
  have hcomp : setActiveSession st.activeId
        (fun s => { s with messages := s.messages ++ [{ role := .assistant, text := [] }] })
        (appendUserMessage st.activeId (jsTrim st.input) st.sessions)
      = setActiveSession st.activeId
          (fun x => { x with
            title := if x.title = "New chat".data
                     then (if (jsTrim st.input).take 32 = [] then "New chat".data
                           else (jsTrim st.input).take 32)
                     else x.title
            messages := (x.messages ++ [{ role := .user, text := jsTrim st.input }])
              ++ [{ role := .assistant, text := [] }] }) st.sessions := by
    unfold appendUserMessage
    rw [setActiveSession_comp st.activeId
          (fun s => { s with messages := s.messages ++ [{ role := .assistant, text := [] }] })
          (fun s => { s with
            title := if s.title = "New chat".data
                     then (if (jsTrim st.input).take 32 = [] then "New chat".data
                           else (jsTrim st.input).take 32)
                     else s.title
            messages := s.messages ++ [{ role := .user, text := jsTrim st.input }] })
          (fun x => rfl)]
  rw [hcomp]
  have hfind2 : (setActiveSession st.activeId
        (fun x => { x with
          title := if x.title = "New chat".data
                   then (if (jsTrim st.input).take 32 = [] then "New chat".data
                         else (jsTrim st.input).take 32)
                   else x.title
          messages := (x.messages ++ [{ role := .user, text := jsTrim st.input }])
            ++ [{ role := .assistant, text := [] }] }) st.sessions).find?
        (fun x => x.id == st.activeId)
      = some { s with
          title := if s.title = "New chat".data
                   then (if (jsTrim st.input).take 32 = [] then "New chat".data
                         else (jsTrim st.input).take 32)
                   else s.title
          messages := (s.messages ++ [{ role := .user, text := jsTrim st.input }])
            ++ [{ role := .assistant, text := [] }] } := by
    unfold setActiveSession
    rw [find?_map_id_pres (fun x => by by_cases h : x.id = st.activeId <;> simp [h]) _ _,
        hfind]
    simp [hsid]
  rw [hfind2]
  dsimp only
  congr 1
  rw [setActiveSession_comp st.activeId _
        (fun x : Session => { x with
          title := if x.title = "New chat".data
                   then (if (jsTrim st.input).take 32 = [] then "New chat".data
                         else (jsTrim st.input).take 32)
                   else x.title
          messages := (x.messages ++ [{ role := .user, text := jsTrim st.input }])
            ++ [{ role := .assistant, text := [] }] })
        (fun x => rfl)]
  unfold setActiveSession sentSession
  apply List.map_congr_left
  intro x hx
  by_cases hxe : x.id = st.activeId
  · rw [if_pos hxe, if_pos hxe]
    have hxs : x = s := List.inj_on_of_nodup_map hnodup hx
      (List.mem_of_find?_eq_some hfind) (by rw [hxe, hsid])
    subst hxs
    have hlen : ((x.messages ++ [({ role := .user, text := jsTrim st.input } : Message)])
          ++ [({ role := .assistant, text := [] } : Message)]).length - 1
        = (x.messages ++ [({ role := .user, text := jsTrim st.input } : Message)]).length := by
      simp
    dsimp only
    rw [hlen, modifyIdx_last]
    simp
  · rw [if_neg hxe, if_neg hxe]

theorem send_empty_input (st : AppState) (now : Nat) (o : SendOutcome)
    (h : jsTrim st.input = []) : send st now o = st := by
  unfold send
  rw [if_pos h]

theorem send_dup_reject (st : AppState) (now : Nat) (o : SendOutcome)
    (hne : jsTrim st.input ≠ [])
    (hfind : (st.sessions.find? (fun x => x.id == st.activeId)).isNone = false)
    (hdup : jsTrim st.input = st.lastText ∧ now - st.lastT < 1200) :
    send st now o = st := by
  unfold send
  rw [if_neg hne, if_neg (by simp [hfind])]
  have hacq : tryAcquire ⟨st.sendingRef, st.lastText, st.lastT⟩ (jsTrim st.input) now
      = (false, ⟨st.sendingRef, st.lastText, st.lastT⟩) := by
    unfold tryAcquire
    rw [if_pos hdup]
  rw [hacq]

theorem send_guard_reject_sessions (st : AppState) (now : Nat) (o : SendOutcome)
    (hg : (tryAcquire ⟨st.sendingRef, st.lastText, st.lastT⟩ (jsTrim st.input) now).1
      = false) :
    (send st now o).sessions = st.sessions := by
  unfold send
  by_cases h1 : jsTrim st.input = []
  · rw [if_pos h1]
  · rw [if_neg h1]
    by_cases h2 : (st.sessions.find? (fun x => x.id == st.activeId)).isNone = true
    · rw [if_pos h2]
    · rw [if_neg h2]
      cases hacq : tryAcquire ⟨st.sendingRef, st.lastText, st.lastT⟩ (jsTrim st.input) now with
      | mk b g =>
        rw [hacq] at hg
        dsimp at hg
        subst hg
        rfl

theorem sentSession_id (T F : List Char) (x : Session) :
    (sentSession T F x).id = x.id := rfl

theorem find?_sent_map {st : AppState} {s : Session}
    (hfind : st.sessions.find? (fun x => x.id == st.activeId) = some s)
    (T F : List Char) :
    (st.sessions.map (fun x => if x.id = st.activeId
        then sentSession T F x else x)).find? (fun x => x.id == st.activeId)
      = some (sentSession T F s) := by
  have hsid : s.id = st.activeId := by
    have h := List.find?_some hfind
    simpa using h
  rw [find?_map_id_pres (fun x => by by_cases h : x.id = st.activeId <;> simp [h, sentSession_id])
        _ _, hfind]
  simp [hsid]

theorem sent_map_ids (st : AppState) (T F : List Char) :
    (st.sessions.map (fun x => if x.id = st.activeId
        then sentSession T F x else x)).map Session.id
      = st.sessions.map Session.id := by
  rw [List.map_map]
  apply List.map_congr_left
  intro x _
  by_cases h : x.id = st.activeId <;> simp [Function.comp, h, sentSession_id]

theorem sentSession_userCount (T F : List Char) (s : Session) :
    (sentSession T F s).messages.countP (fun m => m.role == Role.user)
      = s.messages.countP (fun m => m.role == Role.user) + 1 := by
  simp [sentSession, List.countP_append, List.countP_cons]

/-! ## Claim C9: rejected sends change no session state -/

/-- C9: a send whose input trims to the empty string is rejected with the
entire state unchanged, and a send whose guard acquisition fails (a
duplicate inside the suppression window, or a send already in flight)
leaves the session collection exactly as before the call — no user
message is appended and no placeholder assistant message is created. -/
theorem send_reject_no_state_change (st : AppState) (now : Nat) (o : SendOutcome) :
    (jsTrim st.input = [] → send st now o = st)
    ∧ ((tryAcquire ⟨st.sendingRef, st.lastText, st.lastT⟩ (jsTrim st.input) now).1
        = false →
       (send st now o).sessions = st.sessions) :=
  ⟨send_empty_input st now o, send_guard_reject_sessions st now o⟩

/-- C9 witness: whitespace-only input leaves the state untouched; a guard
rejection (here: a send already in flight) leaves the sessions untouched. -/
theorem send_reject_no_state_change_witness :
    send ⟨[newSession "a" 0], "a", "  ".data, false, false, [], 0⟩ 7 (.success ["z".data])
      = ⟨[newSession "a" 0], "a", "  ".data, false, false, [], 0⟩
    ∧ (send ⟨[newSession "a" 0], "a", "hi".data, false, true, [], 0⟩ 7
        (.success ["z".data])).sessions = [newSession "a" 0] := by
  constructor
  · exact (send_reject_no_state_change
      ⟨[newSession "a" 0], "a", "  ".data, false, false, [], 0⟩ 7
      (.success ["z".data])).1 (by decide)
  · exact (send_reject_no_state_change
      ⟨[newSession "a" 0], "a", "hi".data, false, true, [], 0⟩ 7
      (.success ["z".data])).2 (by decide)

/-! ## Claim C2: the settled text of a streaming send -/

/-- C2 (amended): for a successfully completed streaming send, the final
text of the assistant message appended for that send is exactly the
concatenation `F1 ++ … ++ Fn` of the delivered fragments — the raw
accumulator value.  No trailing annotation/sanitization pass is applied to
the persisted text (the `maybeAttachNote` finalization step in the source
is commented out, and `mdLite` runs only at render time). -/
theorem send_streaming_final_text (st : AppState) (now : Nat) (frags : List (List Char))
    (hnodup : (st.sessions.map Session.id).Nodup)
    (htrim : jsTrim st.input ≠ [])
    (s : Session)
    (hfind : st.sessions.find? (fun x => x.id == st.activeId) = some s)
    (hdup : ¬(jsTrim st.input = st.lastText ∧ now - st.lastT < 1200))
    (hflight : st.sendingRef = false) :
    (send st now (.success frags)).sessions.find? (fun x => x.id == st.activeId)
      = some (sentSession (jsTrim st.input) frags.flatten s)
    ∧ (sentSession (jsTrim st.input) frags.flatten s).messages
      = s.messages ++ [{ role := .user, text := jsTrim st.input },
                       { role := .assistant, text := frags.flatten }] := by
  constructor
  · rw [send_success_shape st now frags hnodup htrim s hfind hdup hflight]
    exact find?_sent_map hfind _ _
  · rfl

/-- C2 witness: a concrete three-fragment stream (with one empty fragment,
which the accumulator skips) settles to the fragment concatenation. -/
theorem send_streaming_final_text_witness :
    (send ⟨[newSession "a" 0], "a", " hi ".data, false, false, [], 0⟩ 5000
        (.success ["x".data, [], "y".data])).sessions.find? (fun x => x.id == "a")
      = some (sentSession "hi".data "xy".data (newSession "a" 0)) := by
  have h := (send_streaming_final_text
    ⟨[newSession "a" 0], "a", " hi ".data, false, false, [], 0⟩
    5000 ["x".data, [], "y".data] (by decide) (by decide) (newSession "a" 0) (by decide)
    (by decide) rfl).1
  exact h.trans (by decide)

/-- C2 counterexample: the persisted final text is the raw concatenation,
not its annotated/sanitized form.  With fragments `["abc", "**Note:** x"]`
the settled assistant text is `abc**Note:** x`, while the annotation pass
would strip from the marker (or strip and re-append a localized note), and
the sanitizer would rewrite it — all of them differ from what is
persisted. -/
theorem send_streaming_not_annotated :
    (send ⟨[newSession "a" 0], "a", "hi".data, false, false, [], 0⟩ 5000
        (.success ["abc".data, "**Note:** x".data])).sessions.find?
        (fun x => x.id == "a")
      = some (sentSession "hi".data "abc**Note:** x".data (newSession "a" 0))
    ∧ maybeAttachNote "abc**Note:** x".data "" "en" ≠ "abc**Note:** x".data
    ∧ maybeAttachNote "abc**Note:** x".data "wire_fraud" "en" ≠ "abc**Note:** x".data
    ∧ maybeAttachNote "abc**Note:** x".data "wire_fraud" "my" ≠ "abc**Note:** x".data
    ∧ mdLite "abc**Note:** x".data ≠ "abc**Note:** x".data := by
  refine ⟨by decide, by decide, by decide, by decide, by decide⟩

theorem send_success_find (st : AppState) (now : Nat) (frags : List (List Char))
    (hnodup : (st.sessions.map Session.id).Nodup)
    (htrim : jsTrim st.input ≠ [])
    (s : Session)
    (hfind : st.sessions.find? (fun x => x.id == st.activeId) = some s)
    (hdup : ¬(jsTrim st.input = st.lastText ∧ now - st.lastT < 1200))
    (hflight : st.sendingRef = false) :
    (send st now (.success frags)).sessions.find? (fun x => x.id == st.activeId)
      = some (sentSession (jsTrim st.input) frags.flatten s) := by
  rw [send_success_shape st now frags hnodup htrim s hfind hdup hflight]
  exact find?_sent_map hfind _ _

theorem send_success_then_send (st : AppState) (now1 : Nat) (frags : List (List Char))
    (hnodup : (st.sessions.map Session.id).Nodup)
    (htrim : jsTrim st.input ≠ [])
    (s : Session)
    (hfind : st.sessions.find? (fun x => x.id == st.activeId) = some s)
    (hdup : ¬(jsTrim st.input = st.lastText ∧ now1 - st.lastT < 1200))
    (hflight : st.sendingRef = false)
    (i2 : List Char) (now3 : Nat) (frags2 : List (List Char))
    (htrim2 : jsTrim i2 ≠ [])
    (hacc : ¬(jsTrim i2 = jsTrim st.input ∧ now3 - now1 < 1200)) :
    (send { send st now1 (.success frags) with input := i2 } now3
        (.success frags2)).sessions.find? (fun x => x.id == st.activeId)
      = some (sentSession (jsTrim i2) frags2.flatten
          (sentSession (jsTrim st.input) frags.flatten s)) := by
  have hshape := send_success_shape st now1 frags hnodup htrim s hfind hdup hflight
  have hst2 : ({ send st now1 (.success frags) with input := i2 } : AppState)
      = ⟨st.sessions.map (fun x => if x.id = st.activeId
            then sentSession (jsTrim st.input) frags.flatten x else x),
         st.activeId, i2, false, false, jsTrim st.input, now1⟩ := by
    rw [hshape]
  rw [hst2]
  have hfind2 : ((⟨st.sessions.map (fun x => if x.id = st.activeId
        then sentSession (jsTrim st.input) frags.flatten x else x),
        st.activeId, i2, false, false, jsTrim st.input, now1⟩ : AppState)).sessions.find?
        (fun x => x.id == (⟨st.sessions.map (fun x => if x.id = st.activeId
          then sentSession (jsTrim st.input) frags.flatten x else x),
          st.activeId, i2, false, false, jsTrim st.input, now1⟩ : AppState).activeId)
      = some (sentSession (jsTrim st.input) frags.flatten s) := by
    dsimp only
    exact find?_sent_map hfind _ _
  rw [send_success_shape _ now3 frags2
        (by dsimp only; rw [sent_map_ids]; exact hnodup)
        htrim2 _ hfind2 (fun hc => hacc ⟨hc.1, hc.2⟩) rfl]
  dsimp only
  exact @find?_sent_map ⟨st.sessions.map (fun x => if x.id = st.activeId
      then sentSession (jsTrim st.input) frags.flatten x else x),
      st.activeId, i2, false, false, jsTrim st.input, now1⟩ _ hfind2 _ _

/-! ## Claim C5: duplicate-send suppression -/

/-- C5: the guard section rejects when a send is in flight or when the
text equals the last sent text within the 1200 ms window, and otherwise
marks the guard in-flight, records `(text, now)`, and accepts; at the
send level, an accepted send appends exactly one user message, an
identical resubmission within the window is rejected with no state change
at all, and resubmitting the same text after the window elapses appends a
second user message. -/
theorem send_guard_dedupe (g : Guard) (gtext : List Char) (gnow : Nat)
    (st : AppState) (now1 : Nat) (frags : List (List Char))
    (hnodup : (st.sessions.map Session.id).Nodup)
    (htrim : jsTrim st.input ≠ [])
    (s : Session)
    (hfind : st.sessions.find? (fun x => x.id == st.activeId) = some s)
    (hdup : ¬(jsTrim st.input = st.lastText ∧ now1 - st.lastT < 1200))
    (hflight : st.sendingRef = false) :
    ((g.inFlight = true ∨ (gtext = g.lastText ∧ gnow - g.lastT < 1200)) →
        (tryAcquire g gtext gnow).1 = false)
    ∧ (g.inFlight = false → ¬(gtext = g.lastText ∧ gnow - g.lastT < 1200) →
        tryAcquire g gtext gnow = (true, ⟨true, gtext, gnow⟩))
    ∧ ((send st now1 (.success frags)).sessions.find? (fun x => x.id == st.activeId)
        = some (sentSession (jsTrim st.input) frags.flatten s))
    ∧ ((sentSession (jsTrim st.input) frags.flatten s).messages.countP
          (fun m => m.role == Role.user)
        = s.messages.countP (fun m => m.role == Role.user) + 1)
    ∧ (∀ now2 o2, now2 - now1 < 1200 →
        send { send st now1 (.success frags) with input := st.input } now2 o2
          = { send st now1 (.success frags) with input := st.input })
    ∧ (∀ now3 frags2, ¬(now3 - now1 < 1200) →
        (send { send st now1 (.success frags) with input := st.input } now3
            (.success frags2)).sessions.find? (fun x => x.id == st.activeId)
          = some (sentSession (jsTrim st.input) frags2.flatten
              (sentSession (jsTrim st.input) frags.flatten s))) := by
  have hshape := send_success_shape st now1 frags hnodup htrim s hfind hdup hflight
  refine ⟨?_, ?_, ?_, sentSession_userCount _ _ _, ?_, ?_⟩
  · intro h
    unfold tryAcquire
    by_cases hd : gtext = g.lastText ∧ gnow - g.lastT < 1200
    · rw [if_pos hd]
    · rw [if_neg hd]
      rcases h with hf | hd'
      · dsimp only
        rw [hf]
        rfl
      · exact absurd hd' hd
  · intro hf hd
    unfold tryAcquire
    rw [if_neg hd]
    dsimp only
    rw [hf, if_neg (by decide)]
  · rw [hshape]
    exact find?_sent_map hfind _ _
  · intro now2 o2 hwin
    rw [hshape]
    apply send_dup_reject
    · exact htrim
    · dsimp only
      rw [find?_sent_map hfind _ _]
      rfl
    · exact ⟨rfl, hwin⟩
  · intro now3 frags2 hwin
    exact send_success_then_send st now1 frags hnodup htrim s hfind hdup hflight
      st.input now3 frags2 htrim (fun hc => hwin hc.2)

/-- C5 witness: the guard rejects while a send is in flight; an identical
resubmission 700 ms after an accepted send is a no-op on the whole state. -/
theorem send_guard_dedupe_witness :
    (tryAcquire ⟨true, [], 0⟩ "x".data 5).1 = false
    ∧ send { send ⟨[newSession "a" 0], "a", "hi".data, false, false, [], 0⟩ 1300
          (.success ["y".data]) with input := "hi".data } 2000 (.success ["z".data])
      = { send ⟨[newSession "a" 0], "a", "hi".data, false, false, [], 0⟩ 1300
          (.success ["y".data]) with input := "hi".data } := by
  constructor
  · exact (send_guard_dedupe ⟨true, [], 0⟩ "x".data 5
      ⟨[newSession "a" 0], "a", "hi".data, false, false, [], 0⟩ 1300 ["y".data]
      (by decide) (by decide) (newSession "a" 0) (by decide) (by decide) rfl).1
      (Or.inl rfl)
  · exact (send_guard_dedupe ⟨true, [], 0⟩ "x".data 5
      ⟨[newSession "a" 0], "a", "hi".data, false, false, [], 0⟩ 1300 ["y".data]
      (by decide) (by decide) (newSession "a" 0) (by decide) (by decide) rfl).2.2.2.2.1
      2000 (.success ["z".data]) (by decide)

/-! ## Claim C8: the client-side timeout (api.js lines 14-60) -/

/-- `REQ_TIMEOUT_MS` (api.js line 17): the `45000` default (no
`VITE_REQUEST_TIMEOUT_MS` override). -/
def REQ_TIMEOUT_MS : Nat := 45000

/-- The message of the `DOMException` a browser attaches to a fetch
cancelled by `AbortController.abort()`.  It is browser-supplied — nothing
in the repository produces or inspects it, and it carries no timeout
wording; it is fixed here as a representative constant. -/
def abortMessage : List Char := "The operation was aborted.".data

/-- One fetch attempt as seen by `http`: a response (with the
`JSON.parse(text)?.detail` extraction supplied as an oracle: `jsonDetail`
is `some d` exactly when the body parses as JSON with a truthy string
`detail` field) or a network-level failure. -/
inductive FetchOutcome where
  | resp (status : Nat) (statusText : String) (body : String) (jsonDetail : Option String)
  | netFail (message : List Char)

/-- `http` (api.js line 40): `withTimeout(REQ_TIMEOUT_MS)` aborts the call
once the timeout elapses, surfacing the browser's `AbortError` unchanged
(`http` has no timeout-specific handling — only `health` maps
`AbortError` to `"timeout"`, and `send` never calls `health`); otherwise a
non-2xx response throws `Error` with `"HTTP <status> <statusText> — <detail>"`,
and a network failure surfaces the browser's `TypeError`. -/
def http (elapsed : Nat) (f : FetchOutcome) : Except JsError String :=
  if REQ_TIMEOUT_MS ≤ elapsed then
    Except.error ⟨"AbortError", abortMessage⟩
  else
    match f with
    | .netFail m => Except.error ⟨"TypeError", m⟩
    | .resp status statusText body jsonDetail =>
      if 200 ≤ status ∧ status ≤ 299 then Except.ok body
      else
        Except.error ⟨"Error",
          ("HTTP " ++ toString status ++ " " ++ statusText ++ " — ").data
            ++ (jsonDetail.getD (if body = "" then statusText else body)).data⟩

theorem send_failure_then_send (st : AppState) (now1 : Nat) (e : JsError)
    (hnodup : (st.sessions.map Session.id).Nodup)
    (htrim : jsTrim st.input ≠ [])
    (s : Session)
    (hfind : st.sessions.find? (fun x => x.id == st.activeId) = some s)
    (hdup : ¬(jsTrim st.input = st.lastText ∧ now1 - st.lastT < 1200))
    (hflight : st.sendingRef = false)
    (i2 : List Char) (now3 : Nat) (frags2 : List (List Char))
    (htrim2 : jsTrim i2 ≠ [])
    (hacc : ¬(jsTrim i2 = jsTrim st.input ∧ now3 - now1 < 1200)) :
    (send { send st now1 (.failure e) with input := i2 } now3
        (.success frags2)).sessions.find? (fun x => x.id == st.activeId)
      = some (sentSession (jsTrim i2) frags2.flatten
          (sentSession (jsTrim st.input) ("Server error: ".data ++ e.message) s)) := by
  have hshape := send_failure_shape st now1 e hnodup htrim s hfind hdup hflight
  have hst2 : ({ send st now1 (.failure e) with input := i2 } : AppState)
      = ⟨st.sessions.map (fun x => if x.id = st.activeId
            then sentSession (jsTrim st.input) ("Server error: ".data ++ e.message) x else x),
         st.activeId, i2, false, false, jsTrim st.input, now1⟩ := by
    rw [hshape]
  rw [hst2]
  have hfind2 : ((⟨st.sessions.map (fun x => if x.id = st.activeId
        then sentSession (jsTrim st.input) ("Server error: ".data ++ e.message) x else x),
        st.activeId, i2, false, false, jsTrim st.input, now1⟩ : AppState)).sessions.find?
        (fun x => x.id == (⟨st.sessions.map (fun x => if x.id = st.activeId
          then sentSession (jsTrim st.input) ("Server error: ".data ++ e.message) x else x),
          st.activeId, i2, false, false, jsTrim st.input, now1⟩ : AppState).activeId)
      = some (sentSession (jsTrim st.input) ("Server error: ".data ++ e.message) s) := by
    dsimp only
    exact find?_sent_map hfind _ _
  rw [send_success_shape _ now3 frags2
        (by dsimp only; rw [sent_map_ids]; exact hnodup)
        htrim2 _ hfind2 (fun hc => hacc ⟨hc.1, hc.2⟩) rfl]
  dsimp only
  exact @find?_sent_map ⟨st.sessions.map (fun x => if x.id = st.activeId
      then sentSession (jsTrim st.input) ("Server error: ".data ++ e.message) x else x),
      st.activeId, i2, false, false, jsTrim st.input, now1⟩ _ hfind2 _ _

/-- C8 (amended): when the client-side timeout elapses, the in-flight call
is aborted — `withTimeout` fires the `AbortController`, and `http`
surfaces the browser's `AbortError` unchanged (first conjunct).  A thrown
error reaches the send pipeline's single catch handler, which replaces the
placeholder with `"Server error: " + e.message` — the same generic form
used for every transport failure, with no timeout-specific branch — the
guard is released (`sendingRef` and `busy` cleared), and a subsequent send
with different text is accepted immediately. -/
theorem send_timeout_aborted_generic_report (st : AppState) (now : Nat) (e : JsError)
    (hnodup : (st.sessions.map Session.id).Nodup)
    (htrim : jsTrim st.input ≠ [])
    (s : Session)
    (hfind : st.sessions.find? (fun x => x.id == st.activeId) = some s)
    (hdup : ¬(jsTrim st.input = st.lastText ∧ now - st.lastT < 1200))
    (hflight : st.sendingRef = false)
    (i2 : List Char) (now3 : Nat) (frags2 : List (List Char))
    (htrim2 : jsTrim i2 ≠ [])
    (hne2 : jsTrim i2 ≠ jsTrim st.input) :
    (∀ elapsed f, REQ_TIMEOUT_MS ≤ elapsed →
        http elapsed f = Except.error ⟨"AbortError", abortMessage⟩)
    ∧ (send st now (.failure e)).sessions.find? (fun x => x.id == st.activeId)
        = some (sentSession (jsTrim st.input) ("Server error: ".data ++ e.message) s)
    ∧ (send st now (.failure e)).sendingRef = false
    ∧ (send st now (.failure e)).busy = false
    ∧ (send { send st now (.failure e) with input := i2 } now3
        (.success frags2)).sessions.find? (fun x => x.id == st.activeId)
      = some (sentSession (jsTrim i2) frags2.flatten
          (sentSession (jsTrim st.input) ("Server error: ".data ++ e.message) s)) := by
  have hshape := send_failure_shape st now e hnodup htrim s hfind hdup hflight
  refine ⟨?_, ?_, ?_, ?_, ?_⟩
  · intro elapsed f h
    unfold http
    rw [if_pos h]
  · rw [hshape]
    exact find?_sent_map hfind _ _
  · rw [hshape]
  · rw [hshape]
  · exact send_failure_then_send st now e hnodup htrim s hfind hdup hflight
      i2 now3 frags2 htrim2 (fun hc => hne2 hc.1)

/-- C8 counterexample: the reporting is not timeout-distinct.  A send
whose transport throws the timeout abort (`AbortError`) produces exactly
the same resulting state as one whose transport throws a network error
(`TypeError`) with the same message — the catch handler reads only
`e.message` — and the placeholder text is the generic
`"Server error: " + message`, with no timeout wording. -/
theorem send_timeout_report_not_distinct :
    send ⟨[newSession "a" 0], "a", "hi".data, false, false, [], 0⟩ 5000
        (.failure ⟨"AbortError", "boom".data⟩)
      = send ⟨[newSession "a" 0], "a", "hi".data, false, false, [], 0⟩ 5000
        (.failure ⟨"TypeError", "boom".data⟩)
    ∧ (send ⟨[newSession "a" 0], "a", "hi".data, false, false, [], 0⟩ 5000
        (.failure ⟨"AbortError", "boom".data⟩)).sessions.find? (fun x => x.id == "a")
      = some (sentSession "hi".data "Server error: boom".data (newSession "a" 0)) := by
  refine ⟨by decide, by decide⟩

/-- C8 witness: the timeout fires at exactly `REQ_TIMEOUT_MS`; a concrete
failed send settles the placeholder to the generic error string. -/
theorem send_timeout_aborted_generic_report_witness :
    http 45000 (.netFail "x".data) = Except.error ⟨"AbortError", abortMessage⟩
    ∧ (send ⟨[newSession "a" 0], "a", "hi".data, false, false, [], 0⟩ 5000
        (.failure ⟨"AbortError", "m".data⟩)).sessions.find? (fun x => x.id == "a")
      = some (sentSession "hi".data ("Server error: ".data ++ "m".data)
          (newSession "a" 0)) := by
  constructor
  · exact (send_timeout_aborted_generic_report
      ⟨[newSession "a" 0], "a", "hi".data, false, false, [], 0⟩ 5000
      ⟨"AbortError", "m".data⟩ (by decide) (by decide) (newSession "a" 0)
      (by decide) (by decide) rfl "b".data 0 [] (by decide) (by decide)).1
      45000 (.netFail "x".data) (by decide)
  · exact (send_timeout_aborted_generic_report
      ⟨[newSession "a" 0], "a", "hi".data, false, false, [], 0⟩ 5000
      ⟨"AbortError", "m".data⟩ (by decide) (by decide) (newSession "a" 0)
      (by decide) (by decide) rfl "b".data 0 [] (by decide) (by decide)).2.1

end PTH
